import Mathlib

/-!
# Verification of the ROKU G66/G83 NC editor core

Shallow embedding of the parsing, rewriting, peck-simulation and analysis core of
the ROKU NC editor (`ROKU_G66_Editor/nc_parser.py` and
`ROKU_G66_Editor/analysis_engine.py`).

Modelling conventions:

* Python floats are modelled as exact rationals (`ℚ`); the one genuinely real-valued
  computation (the `** 1.4` power in the risk index) is modelled over `ℝ` with `rpow`.
  Binary floating-point rounding is not modelled; all the code's tolerance comparisons
  (`1e-6`) are taken over exact values.
* `re.findall(r'([RZSIJKT])\s*([-+]?(?:\d*\.\d+|\d+))', line)` is modelled by the
  character scanner `findToks`.  The scanner restarts at the character following a
  matched parameter letter instead of after the whole match; this is equivalent to
  the regex's non-overlapping leftmost semantics because a match span after its
  leading letter consists only of whitespace, sign, digit and dot characters, none of
  which is a parameter letter, so no further match can start inside a consumed span.
  The same argument applies to the `S(\d+)`, `T(\d+)` and `D\s*(\d*\.?\d+)` scans.
  The number alternation `\d*\.\d+|\d+` and the `D`-scan's `\d*\.?\d+` accept the
  same strings with the same maximal-munch result, so both are modelled by `numBody`.
* `while True` loops with internal `break`s are modelled with an explicit fuel that
  is provably never exhausted (`g83LoopAux`); Python's `float('inf')` result of the
  time estimator is modelled by `Option` (`none` = infinite time).
* An uncaught Python `TypeError` (arithmetic on `None`, raised by
  `_parse_fixed_cycle_line`/`_g83_to_ijk` whenever a G83 line carries no `R` or no
  `Z` token, because `dict.get('Z', 0)` returns the stored `None`) is modelled by an
  `Option` result of the fixed-cycle parser.
* Fields of the per-cycle dictionaries that no claim touches (`original_line`,
  `initial_static`, `initial_dynamic`, `initial_rpm`, `detected_diameter`) are not
  modelled.
-/

set_option maxRecDepth 8000

/-- The zero/equality tolerance `1e-6` used throughout the source. -/
def tol : ℚ := 1/1000000

/-! ## Character and digit primitives -/

/-- Numeric value of a decimal digit character. -/
def digVal (c : Char) : ℕ := c.toNat - 48

/-- Longest prefix of decimal digits (`\d*`) and the remaining characters. -/
def takeDigs : List Char → List Char × List Char
  | [] => ([], [])
  | c :: cs =>
    if c.isDigit then
      let p := takeDigs cs
      (c :: p.1, p.2)
    else ([], c :: cs)

/-- Value of a digit string read left to right. -/
def digsVal (ds : List Char) : ℕ := ds.foldl (fun a c => 10 * a + digVal c) 0

/-- The characters matched by the regex class `\s`. -/
def isSpaceCh (c : Char) : Bool :=
  c = ' ' || c = '\t' || c = '\n' || c = '\r' || c = '\x0b' || c = '\x0c'

/-- Maximal-munch parse of the regex number body `(\d*\.\d+|\d+)` (equivalently of
`\d*\.?\d+`): its exact rational value and the unconsumed rest, `none` when no
alternative matches. -/
def numBody (s : List Char) : Option (ℚ × List Char) :=
  let p1 := takeDigs s
  match p1.2 with
  | '.' :: r2 =>
    let p2 := takeDigs r2
    if p2.1.isEmpty then
      (if p1.1.isEmpty then none else some ((digsVal p1.1 : ℚ), p1.2))
    else some ((digsVal p1.1 : ℚ) + (digsVal p2.1 : ℚ) / (10 : ℚ) ^ p2.1.length, p2.2)
  | _ => if p1.1.isEmpty then none else some ((digsVal p1.1 : ℚ), p1.2)

/-- Parse of `[-+]?(?:\d*\.\d+|\d+)`. -/
def signedNum (s : List Char) : Option (ℚ × List Char) :=
  match s with
  | '-' :: r => (numBody r).map (fun p => (-p.1, p.2))
  | '+' :: r => numBody r
  | _ => numBody s

/-- `re.findall(r'(<cls>)\s*([-+]?(?:\d*\.\d+|\d+))', line)` as the list of
letter/value pairs in match order (see the header note on restart equivalence). -/
def findToks (cls : Char → Bool) : List Char → List (Char × ℚ)
  | [] => []
  | c :: cs =>
    if cls c then
      match signedNum (cs.dropWhile isSpaceCh) with
      | some p => (c, p.1) :: findToks cls cs
      | none => findToks cls cs
    else findToks cls cs

/-- The macro-cycle parameter-letter class `[RZSIJKT]`. -/
def cls66 (c : Char) : Bool :=
  c = 'R' || c = 'Z' || c = 'S' || c = 'I' || c = 'J' || c = 'K' || c = 'T'

/-- The fixed-cycle parameter-letter class `[RZQFXYIJK]`. -/
def cls83 (c : Char) : Bool :=
  c = 'R' || c = 'Z' || c = 'Q' || c = 'F' || c = 'X' || c = 'Y' ||
  c = 'I' || c = 'J' || c = 'K'

/-- Whether the first list is a leading segment of the second. -/
def hasLead : List Char → List Char → Bool
  | [], _ => true
  | _ :: _, [] => false
  | a :: as, b :: bs => a == b && hasLead as bs

/-- Python's substring test `p in s`. -/
def hasSub (p s : List Char) : Bool :=
  match s with
  | [] => hasLead p []
  | _ :: t => hasLead p s || hasSub p t

/-! ## Cycle data model -/

/-- One extracted `I/J/K` triple of a macro cycle (`dynamic_params` element). -/
structure Ijk where
  I : ℚ
  J : ℚ
  K : ℚ
deriving DecidableEq, Repr

/-- The in-progress triple of the recurrence-based grouping (`temp_ijk` dict). -/
structure TempIjk where
  i : Option ℚ
  j : Option ℚ
  k : Option ℚ
deriving DecidableEq, Repr

/-- `_fill_missing_ijk`: close the in-progress triple, defaulting absent members to 0. -/
def fill_missing_ijk (t : TempIjk) : Ijk := ⟨t.i.getD 0, t.j.getD 0, t.k.getD 0⟩

/-- `_is_zero_set`: all three members are zero within `1e-6`. -/
def is_zero_set (g : Ijk) : Bool := |g.I| < tol && |g.J| < tol && |g.K| < tol

/-- One visual peck stage produced by `_g83_to_ijk` (depth increment, retract, 0). -/
structure Stage where
  I : ℚ
  J : ℚ
  K : ℚ
deriving DecidableEq, Repr

/-- Static parameters of a parsed `G66 P9131` line (the `F`/`Q` dict slots stay
`None` in the source and are omitted). -/
structure G66Static where
  R : Option ℚ
  Z : Option ℚ
  S : Option ℚ
  T : Option ℚ
deriving DecidableEq, Repr

/-- Parsed macro-cycle record: static parameters plus the dynamic triples. -/
structure G66Rec where
  static : G66Static
  dynamic : List Ijk
deriving DecidableEq, Repr

/-- Static parameters of a parsed `G83` line (`P` is initialised but never written
by the token scan). -/
structure G83Static where
  R : Option ℚ
  Z : Option ℚ
  Q : Option ℚ
  F : Option ℚ
  P : Option ℚ
  I : Option ℚ
  J : Option ℚ
  K : Option ℚ
  X : Option ℚ
  Y : Option ℚ
deriving DecidableEq, Repr

/-- Parsed fixed-cycle record. -/
structure G83Rec where
  static : G83Static
  use_ijk_mode : Bool
  dynamic : List Stage
  original_xy : Option ℚ × Option ℚ
deriving DecidableEq, Repr

/-! ## Macro-cycle extraction (`_parse_g66_line`) -/

/-- One step of the token loop of `_parse_g66_line`: singleton statics are
last-occurrence-wins; a repeated `I`/`J`/`K` letter closes the in-progress triple,
which is appended unless all-zero. -/
def g66Step (acc : G66Static × TempIjk × List Ijk) (cv : Char × ℚ) :
    G66Static × TempIjk × List Ijk :=
  let st := acc.1
  let temp := acc.2.1
  let dyn := acc.2.2
  let c := cv.1
  let v := cv.2
  if c = 'R' then ({ st with R := some v }, temp, dyn)
  else if c = 'Z' then ({ st with Z := some v }, temp, dyn)
  else if c = 'S' then ({ st with S := some v }, temp, dyn)
  else if c = 'T' then ({ st with T := some v }, temp, dyn)
  else if c = 'I' then
    if temp.i.isSome then
      let closed := fill_missing_ijk temp
      (st, ⟨some v, none, none⟩, if is_zero_set closed then dyn else dyn ++ [closed])
    else (st, { temp with i := some v }, dyn)
  else if c = 'J' then
    if temp.j.isSome then
      let closed := fill_missing_ijk temp
      (st, ⟨none, some v, none⟩, if is_zero_set closed then dyn else dyn ++ [closed])
    else (st, { temp with j := some v }, dyn)
  else if c = 'K' then
    if temp.k.isSome then
      let closed := fill_missing_ijk temp
      (st, ⟨none, none, some v⟩, if is_zero_set closed then dyn else dyn ++ [closed])
    else (st, { temp with k := some v }, dyn)
  else acc

/-- The close of a non-empty in-progress triple after the token loop of
`_parse_g66_line` (`if temp_ijk: ...` after the `for` loop). -/
def g66Finalize (r : G66Static × TempIjk × List Ijk) : G66Static × List Ijk :=
  if r.2.1.i.isSome || r.2.1.j.isSome || r.2.1.k.isSome then
    (r.1, if is_zero_set (fill_missing_ijk r.2.1) then r.2.2
          else r.2.2 ++ [fill_missing_ijk r.2.1])
  else (r.1, r.2.2)

/-- The token loop of `_parse_g66_line` including the final close of a non-empty
in-progress triple. -/
def parse_g66_tokens (toks : List (Char × ℚ)) : G66Static × List Ijk :=
  g66Finalize (toks.foldl g66Step (⟨none, none, none, none⟩, ⟨none, none, none⟩, []))

/-- `_parse_g66_line`: tokenize with the `[RZSIJKT]` class and run the grouping loop. -/
def parse_g66_line (line : List Char) : G66Rec :=
  let r := parse_g66_tokens (findToks cls66 line)
  ⟨r.1, r.2⟩

/-! ## Peck simulation (`_g83_to_ijk`) -/

/-- The `while True` stage loop of `_g83_to_ijk`, with explicit fuel (`none` =
fuel exhausted; the fuel chosen by `g83_run` is provably sufficient). -/
def g83LoopAux (z_bottom r_point : ℚ) (down use_ijk : Bool) (j_red k_min : ℚ) :
    ℕ → ℚ → ℚ → Option (List Stage)
  | 0, _, _ => none
  | fuel+1, current_z, current_peck =>
    let next_z := if down then max (current_z - current_peck) z_bottom
                  else min (current_z + current_peck) z_bottom
    let depth_increment := if down then current_z - next_z else next_z - current_z
    if depth_increment < tol then some []
    else
      let st : Stage := ⟨if down then -depth_increment else depth_increment,
                         r_point - next_z, 0⟩
      if (down && decide (next_z ≤ z_bottom)) || (!down && decide (z_bottom ≤ next_z)) then
        some [st]
      else
        let peck' := if use_ijk then
            (let p := current_peck - j_red; if p < k_min then k_min else p)
          else current_peck
        (g83LoopAux z_bottom r_point down use_ijk j_red k_min fuel next_z peck').map
          (st :: ·)

/-- `_g83_to_ijk` on the numeric parameters: degenerate-peck guards, then the stage
loop from the `R` point. -/
def g83_run (r_point z_bottom : ℚ) (use_ijk : Bool) (qv iv jv kv : ℚ) :
    Option (List Stage) :=
  let down := decide (z_bottom < r_point)
  let fuel := (⌈|z_bottom - r_point| * 1000000⌉).toNat + 2
  if use_ijk then
    if |iv| ≤ tol then some []
    else g83LoopAux z_bottom r_point down true |jv| |kv| fuel r_point |iv|
  else
    if |qv| ≤ tol then some []
    else g83LoopAux z_bottom r_point down false 0 0 fuel r_point |qv|

/-- `_g83_to_ijk` as a total function (the fuel never runs out; see the
termination theorem). -/
def g83_to_ijk (r_point z_bottom : ℚ) (use_ijk : Bool) (qv iv jv kv : ℚ) :
    List Stage :=
  (g83_run r_point z_bottom use_ijk qv iv jv kv).getD []

/-! ## Fixed-cycle extraction (`_parse_fixed_cycle_line`) -/

/-- Python's `round(x, n)` (round-half-to-even on the exact value), at `n = 0`. -/
def roundHalfEven (x : ℚ) : ℤ :=
  let f := ⌊x⌋
  let r := x - (f : ℚ)
  if r < 1/2 then f else if 1/2 < r then f + 1 else if f % 2 = 0 then f else f + 1

/-- Python's `round(x, n)`. -/
def pyRound (x : ℚ) (n : ℕ) : ℚ := (roundHalfEven (x * (10 : ℚ) ^ n) : ℚ) / (10 : ℚ) ^ n

/-- `DrillingAnalysisEngine.get_default_ijk` without a configuration store: the
hard-coded `efficient` ratio preset `(1.1, 0.12, 0.35)` rounded to 3 decimals. -/
def get_default_ijk (diameter : ℚ) : ℚ × ℚ × ℚ :=
  if diameter ≤ 1/10000 then (0, 0, 0)
  else (pyRound (diameter * (11/10)) 3,
        pyRound (diameter * (12/100)) 3,
        pyRound (diameter * (35/100)) 3)

/-- Writing one scanned token into the `G83` static dictionary. -/
def g83SetKey (st : G83Static) (c : Char) (v : ℚ) : G83Static :=
  if c = 'R' then { st with R := some v }
  else if c = 'Z' then { st with Z := some v }
  else if c = 'Q' then { st with Q := some v }
  else if c = 'F' then { st with F := some v }
  else if c = 'X' then { st with X := some v }
  else if c = 'Y' then { st with Y := some v }
  else if c = 'I' then { st with I := some v }
  else if c = 'J' then { st with J := some v }
  else if c = 'K' then { st with K := some v }
  else st

/-- `_parse_fixed_cycle_line`: token scan, mode decision (`I` or `K` present),
zero-defaulting of `I/J/K`, `Q`/`I` default synthesis, forced fall-back to `Q`
mode, and the derived stage list.  `none` models the uncaught `TypeError` the
source raises when the line has no `R` or no `Z` token.  `dia` is
`self.tool_diameters.get(tool_id, ...)` of the scan state. -/
def parse_fixed_cycle_line (dia : Option ℚ) (line : List Char) : Option G83Rec :=
  let st0 := (findToks cls83 line).foldl (fun st cv => g83SetKey st cv.1 cv.2)
    ⟨none, none, none, none, none, none, none, none, none, none⟩
  match st0.R, st0.Z with
  | some rv, some zv =>
    let depth := |zv - rv|
    let use0 := st0.I.isSome || st0.K.isSome
    let i0 := st0.I.getD 0
    let st1 := { st0 with I := some i0, J := some (st0.J.getD 0), K := some (st0.K.getD 0) }
    let st2 := if !use0 && (st1.Q.isNone || decide (|st1.Q.getD 0| < tol)) then
        { st1 with Q := some (if 0 < depth then min 1 (depth / 3) else 1) }
      else st1
    let detected := dia.getD 0
    let st3 := if use0 && decide (|i0| < tol) then
        (if tol < detected then
           let d := get_default_ijk detected
           { st2 with I := some d.1, J := some d.2.1, K := some d.2.2 }
         else
           let iv := if 0 < depth then min (1/2) (depth / 3) else (1/2)
           { st2 with I := some iv, J := some (iv * (2/10)), K := some (iv * (5/10)) })
      else st2
    let r4 := if use0 && decide (|st3.I.getD 0| < tol) && decide (|st3.K.getD 0| < tol) then
        (false, if st3.Q.isNone || decide (|st3.Q.getD 0| < tol) then
           { st3 with Q := some (if 0 < depth then min 1 (depth / 3) else 1) } else st3)
      else (use0, st3)
    let st4 := r4.2
    let use1 := r4.1
    some ⟨st4, use1,
          g83_to_ijk rv zv use1 (st4.Q.getD 0) (st4.I.getD 0) (st4.J.getD 0) (st4.K.getD 0),
          (st0.X, st0.Y)⟩
  | _, _ => none

/-! ## Number formatting (`f"{val:g}"`) and line reconstruction (`update_g66_line`) -/

/-- Decimal digit characters of a natural number (`fuel`-driven; the fuel `n + 1`
always suffices). -/
def natCharsAux : ℕ → ℕ → List Char
  | 0, _ => []
  | f+1, n =>
    if n < 10 then [Char.ofNat (48 + n)]
    else natCharsAux f (n / 10) ++ [Char.ofNat (48 + n % 10)]

/-- Decimal digit characters of a natural number. -/
def natChars (n : ℕ) : List Char := natCharsAux (n + 1) n

/-- Strip trailing `'0'` characters. -/
def stripZeros (l : List Char) : List Char := (l.reverse.dropWhile (· = '0')).reverse

/-- Greatest `e` with `10 ^ e ≤ q`, for `0 < q < 1`: counts the factors of ten
needed to reach `1` (fuel-driven; the denominator digit count suffices). -/
def decExpAux : ℕ → ℚ → ℕ
  | 0, _ => 0
  | f+1, q => if 1 ≤ q then 0 else decExpAux f (q * 10) + 1

/-- Decimal exponent: the unique `e` with `10 ^ e ≤ q < 10 ^ (e + 1)` (for `q > 0`). -/
def decExp (q : ℚ) : ℤ :=
  if 1 ≤ q then ((natChars ⌊q⌋₊).length : ℤ) - 1
  else -(decExpAux ((natChars q.den).length + 1) q : ℤ)

/-- The value printed by `%g`: `q` rounded to 6 significant decimal digits
(round-half-even). -/
def sigRound6 (q : ℚ) : ℚ :=
  if q = 0 then 0
  else
    let e := decExp |q|
    (if q < 0 then -1 else 1) * (roundHalfEven (|q| * (10 : ℚ) ^ (5 - e)) : ℚ) *
      (10 : ℚ) ^ (e - 5)

/-- Exponent suffix of `%g` scientific notation (`e+NN` with at least two digits). -/
def expChars (e : ℤ) : List Char :=
  'e' :: (if e < 0 then '-' else '+') ::
    (if e.natAbs < 10 then '0' :: natChars e.natAbs else natChars e.natAbs)

/-- Python `f"{q:g}"` on the exact value: 6 significant digits, trailing zeros and
a trailing point removed, fixed notation for exponents `-4 ≤ e ≤ 5` and
scientific notation otherwise. -/
def fmtG (q : ℚ) : List Char :=
  if q = 0 then ['0']
  else
    let a := |sigRound6 q|
    let e := decExp a
    let m := (a * (10 : ℚ) ^ (5 - e)).num.toNat
    let ds := natChars m
    let body :=
      if e < -4 ∨ 5 < e then
        let frac := stripZeros (ds.drop 1)
        (ds.take 1 ++ (if frac.isEmpty then [] else '.' :: frac)) ++ expChars e
      else if 0 ≤ e then
        let ip := ds.take (e.toNat + 1)
        let fp := stripZeros (ds.drop (e.toNat + 1))
        ip ++ (if fp.isEmpty then [] else '.' :: fp)
      else
        '0' :: '.' :: (List.replicate (e.natAbs - 1) '0' ++ stripZeros ds)
    (if q < 0 then ['-'] else []) ++ body

/-- One `<letter><fmt(value)>` field of a reconstructed line. -/
def fmt_part (c : Char) (v : ℚ) : List Char := c :: fmtG v

/-- `" ".join(parts)`. -/
def joinSp : List (List Char) → List Char
  | [] => []
  | [p] => p
  | p :: q :: ps => p ++ ' ' :: joinSp (q :: ps)

/-- The parts list of the `G66` branch of `update_g66_line`: mandatory `R`/`Z`,
`S`/`T` only when nonzero beyond `1e-6`, then every dynamic triple that has some
member beyond `1e-6`. -/
def update_g66_parts (st : G66Static) (dyn : List Ijk) : List (List Char) :=
  (String.toList "G66 P9131") ::
  ((match st.R with | some v => [fmt_part 'R' v] | none => []) ++
   (match st.Z with | some v => [fmt_part 'Z' v] | none => []) ++
   (match st.S with
    | some v => if tol < |v| then [fmt_part 'S' v] else []
    | none => []) ++
   (match st.T with
    | some v => if tol < |v| then [fmt_part 'T' v] else []
    | none => []) ++
   (dyn.map (fun g =>
      if tol < |g.I| ∨ tol < |g.J| ∨ tol < |g.K| then
        [fmt_part 'I' g.I, fmt_part 'J' g.J, fmt_part 'K' g.K]
      else [])).flatten)

/-- The rebuilt `G66` line text (`" ".join(parts) + "\n"`). -/
def render_g66_line (st : G66Static) (dyn : List Ijk) : List Char :=
  joinSp (update_g66_parts st dyn) ++ ['\n']

/-- The parts list of the `G83` branch of `update_g66_line`: `X`/`Y` from the
parse-time snapshot, then `Z`, `R`, the authoritative peck fields of the current
mode, and `F`. -/
def update_g83_parts (xy : Option ℚ × Option ℚ) (st : G83Static) (use_ijk : Bool) :
    List (List Char) :=
  (String.toList "G83") ::
  ((match xy.1 with | some v => [fmt_part 'X' v] | none => []) ++
   (match xy.2 with | some v => [fmt_part 'Y' v] | none => []) ++
   (match st.Z with | some v => [fmt_part 'Z' v] | none => []) ++
   (match st.R with | some v => [fmt_part 'R' v] | none => []) ++
   (if use_ijk then
      (match st.I with | some v => [fmt_part 'I' v] | none => []) ++
      (match st.J with | some v => [fmt_part 'J' v] | none => []) ++
      (match st.K with | some v => [fmt_part 'K' v] | none => [])
    else
      (match st.Q with | some v => [fmt_part 'Q' v] | none => [])) ++
   (match st.F with | some v => [fmt_part 'F' v] | none => []))

/-- The rebuilt `G83` line text. -/
def render_g83_line (rec : G83Rec) : List Char :=
  joinSp (update_g83_parts rec.original_xy rec.static rec.use_ijk_mode) ++ ['\n']

/-! ## Document scan (`parse_file`) and spindle-speed update -/

/-- A parsed cycle record as stored in `tools_data` (with the state-tracking
fields the claims refer to). -/
inductive CycleData where
  | g66 : G66Rec → CycleData
  | g83 : G83Rec → CycleData
deriving DecidableEq, Repr

/-- One `tools_data` entry. -/
structure Entry where
  tool_id : List Char
  line_index : ℕ
  rpm : ℤ
  rpm_line : ℤ
  cycle : CycleData
deriving DecidableEq, Repr

/-- The mutable scan state of `parse_file` (plus the running line index). -/
structure ScanState where
  idx : ℕ
  current_tool : List Char
  tool_diameters : List (List Char × ℚ)
  current_spindle_rpm : ℤ
  current_spindle_line : ℤ
  tools_data : List Entry
deriving DecidableEq, Repr

/-- The scan state before the first line. -/
def initScan : ScanState := ⟨0, String.toList "Unknown", [], 0, -1, []⟩

/-- `re.search(r'S(\d+)', line)`: value of the first `S<digits>` token. -/
def firstSNum : List Char → Option ℕ
  | [] => none
  | c :: cs =>
    if c = 'S' then
      let p := takeDigs cs
      if p.1.isEmpty then firstSNum cs else some (digsVal p.1)
    else firstSNum cs

/-- `re.search(r'T(\d+)', line)`: digit string of the first `T<digits>` token. -/
def firstTTok : List Char → Option (List Char)
  | [] => none
  | c :: cs =>
    if c = 'T' then
      let p := takeDigs cs
      if p.1.isEmpty then firstTTok cs else some p.1
    else firstTTok cs

/-- `re.findall(r'D\s*(\d*\.?\d+)', line)` as values in match order. -/
def dMatches : List Char → List ℚ
  | [] => []
  | c :: cs =>
    if c = 'D' then
      match numBody (cs.dropWhile isSpaceCh) with
      | some p => p.1 :: dMatches cs
      | none => dMatches cs
    else dMatches cs

/-- `_scan_for_diameter`: first strictly positive `D` value in the ±10-line
window around `idx`, clipped to the document. -/
def scan_for_diameter (lines : List (List Char)) (idx : ℕ) : Option ℚ :=
  let start := idx - 10
  let stop := min lines.length (idx + 11)
  (((lines.drop start).take (stop - start)).map dMatches).flatten.find? (fun v => 0 < v)

/-- Ordered-dict insertion/overwrite for `tool_diameters`. -/
def mapSet (m : List (List Char × ℚ)) (k : List Char) (v : ℚ) : List (List Char × ℚ) :=
  match m with
  | [] => [(k, v)]
  | (k', v') :: t => if k' = k then (k, v) :: t else (k', v') :: mapSet t k v

/-- `dict.get` for `tool_diameters`. -/
def mapGet (m : List (List Char × ℚ)) (k : List Char) : Option ℚ :=
  match m with
  | [] => none
  | (k', v') :: t => if k' = k then some v' else mapGet t k

/-- One line of the `parse_file` loop: spindle-speed state tracking (skipped for
any line containing `G66`), tool-change detection with the diameter window scan,
then cycle detection (`G66`+`P9131`, else `G83`).  `none` models the uncaught
`TypeError` of a malformed `G83` cycle line. -/
def scanStep (lines : List (List Char)) (st : ScanState) (line : List Char) :
    Option ScanState :=
  let rpmPair :=
    if !hasSub (String.toList "G66") line then
      match firstSNum line with
      | some n => ((n : ℤ), (st.idx : ℤ))
      | none => (st.current_spindle_rpm, st.current_spindle_line)
    else (st.current_spindle_rpm, st.current_spindle_line)
  let toolPair :=
    match firstTTok line with
    | some tid =>
      (tid,
       match scan_for_diameter lines st.idx with
       | some d => mapSet st.tool_diameters tid d
       | none => st.tool_diameters)
    | none => (st.current_tool, st.tool_diameters)
  let entries? : Option (List Entry) :=
    if hasSub (String.toList "G66") line && hasSub (String.toList "P9131") line then
      some (st.tools_data ++
        [⟨toolPair.1, st.idx, rpmPair.1, rpmPair.2, CycleData.g66 (parse_g66_line line)⟩])
    else if hasSub (String.toList "G83") line then
      match parse_fixed_cycle_line (mapGet toolPair.2 toolPair.1) line with
      | some r => some (st.tools_data ++
          [⟨toolPair.1, st.idx, rpmPair.1, rpmPair.2, CycleData.g83 r⟩])
      | none => none
    else some st.tools_data
  match entries? with
  | some es => some ⟨st.idx + 1, toolPair.1, toolPair.2, rpmPair.1, rpmPair.2, es⟩
  | none => none

/-- The scan state after the first `n` lines of the document. -/
def parse_file_states (lines : List (List Char)) : ℕ → Option ScanState
  | 0 => some initScan
  | n+1 =>
    (parse_file_states lines n).bind fun st =>
      match lines.get? n with
      | some l => scanStep lines st l
      | none => some st

/-- `parse_file` on an in-memory document. -/
def parse_file (lines : List (List Char)) : Option ScanState :=
  parse_file_states lines lines.length

/-- Python `int(q)` (truncation toward zero). -/
def pyInt (q : ℚ) : ℤ := if q < 0 then -⌊-q⌋ else ⌊q⌋

/-- Decimal characters of an integer. -/
def intChars (n : ℤ) : List Char :=
  if n < 0 then '-' :: natChars n.natAbs else natChars n.toNat

/-- `re.sub(r'S\d+', 'S<rpm>', line, count=1)`. -/
def subFirstS (rpmChars : List Char) : List Char → List Char
  | [] => []
  | c :: cs =>
    if c = 'S' then
      let p := takeDigs cs
      if p.1.isEmpty then c :: subFirstS rpmChars cs
      else 'S' :: (rpmChars ++ p.2)
    else c :: subFirstS rpmChars cs

/-- `update_spindle_speed`: guarded exact-position replacement of the tracked `S`
token.  Returns the success flag with the (possibly) updated document and records. -/
def update_spindle_speed (lines : List (List Char)) (entries : List Entry)
    (data_index : ℤ) (new_rpm : ℚ) : Bool × List (List Char) × List Entry :=
  if data_index < 0 ∨ (entries.length : ℤ) ≤ data_index then (false, lines, entries)
  else if new_rpm ≤ 0 then (false, lines, entries)
  else
    match entries.get? data_index.toNat with
    | none => (false, lines, entries)
    | some e =>
      if e.rpm_line < 0 ∨ (lines.length : ℤ) ≤ e.rpm_line then (false, lines, entries)
      else
        match lines.get? e.rpm_line.toNat with
        | none => (false, lines, entries)
        | some old_line =>
          (true,
           lines.set e.rpm_line.toNat (subFirstS (intChars (pyInt new_rpm)) old_line),
           entries.set data_index.toNat { e with rpm := pyInt new_rpm })

/-! ## Time estimation (`calc_drilling_time`) -/

/-- One stage of the `calc_drilling_time` loop over `(total, current_z, idx)`.
The source duplicates the identical kinematics in both `is_ijk_mode` branches;
the duplication is kept. -/
def drillStep (feedrate r_point g0_speed : ℚ) (is_ijk_mode : Bool) (clearance : ℚ)
    (acc : ℚ × ℚ × ℕ) (peck : Stage) : ℚ × ℚ × ℕ :=
  let total := acc.1
  let prev_z := acc.2.1
  let idx := acc.2.2
  let increment := peck.I
  let target_z := prev_z + increment
  let t1 :=
    if is_ijk_mode then
      (if idx = 0 then |target_z - r_point| / feedrate
       else |r_point - (prev_z + clearance)| / g0_speed +
            |target_z - (prev_z + clearance)| / feedrate)
    else
      (if idx = 0 then |target_z - r_point| / feedrate
       else |r_point - (prev_z + clearance)| / g0_speed +
            |target_z - (prev_z + clearance)| / feedrate)
  (total + t1 + |target_z - r_point| / g0_speed, target_z, idx + 1)

/-- `calc_drilling_time` (minutes); `none` models the `float('inf')` returned for
a non-positive feedrate.  The source's default `clearance` is `0.1`. -/
def calc_drilling_time (ijk_list : List Stage) (feedrate r_point g0_speed : ℚ)
    (is_ijk_mode : Bool) (clearance : ℚ) : Option ℚ :=
  if feedrate ≤ 0 then none
  else some
    (ijk_list.foldl (drillStep feedrate r_point g0_speed is_ijk_mode clearance)
      (0, r_point, 0)).1

/-- Specification-side stage cost after the first stage, following §4.6 of the
spec: rapid from `R` to the previous depth plus clearance, feed to the stage
target, rapid retract to `R`. -/
def drilling_time_spec_tail (feedrate r_point g0_speed clearance : ℚ) :
    ℚ → List Stage → ℚ
  | _, [] => 0
  | prev, s :: tl =>
    let tgt := prev + s.I
    (|r_point - (prev + clearance)| / g0_speed +
     |tgt - (prev + clearance)| / feedrate +
     |tgt - r_point| / g0_speed) +
    drilling_time_spec_tail feedrate r_point g0_speed clearance tgt tl

/-- Specification-side total time, following §4.6 of the spec: the first stage
feeds its whole increment from `R` and retracts; later stages follow
`drilling_time_spec_tail`. -/
def drilling_time_spec (l : List Stage) (feedrate r_point g0_speed clearance : ℚ) : ℚ :=
  match l with
  | [] => 0
  | s :: tl =>
    let tgt := r_point + s.I
    (|tgt - r_point| / feedrate + |tgt - r_point| / g0_speed) +
    drilling_time_spec_tail feedrate r_point g0_speed clearance tgt tl

/-! ## Risk index and strategy selection (`analysis_engine`) -/

/-- The drilling strategies returned by `select_strategy`. -/
inductive Strategy where
  | DIRECT
  | Q_MODE
  | IJK_DYNAMIC
  | DEEP_PROTECT
deriving DecidableEq, Repr

/-- `calculate_dri` with the three configuration factors passed as values (the
source defaults each to `1.0` when the configuration store is absent). -/
noncomputable def calculate_dri (diameter depth r_material r_coolant r_tool : ℝ) : ℝ :=
  if diameter ≤ 0 then 999
  else (1.2 + (depth / diameter) ^ (1.4 : ℝ)) * r_material * r_coolant * r_tool

/-- `select_strategy`: DRI tier thresholds 6, 18, 40. -/
noncomputable def select_strategy (dri : ℝ) : Strategy :=
  if dri < 6 then Strategy.DIRECT
  else if dri < 18 then Strategy.Q_MODE
  else if dri < 40 then Strategy.IJK_DYNAMIC
  else Strategy.DEEP_PROTECT

/-! ## Specification-side predicates used by the claim statements -/

/-- Sum of the depth-increment magnitudes of a stage list (the cumulative depth
reached after its final stage). -/
def incSum (l : List Stage) : ℚ := (l.map (fun s => |s.I|)).sum

/-- Numeric closeness (within `1e-6`) of two optional parameter values: both
absent, or both present and equal within tolerance. -/
def optClose (a b : Option ℚ) : Prop :=
  match a, b with
  | none, none => True
  | some x, some y => |x - y| ≤ tol
  | _, _ => False

/-- Componentwise closeness of dynamic triples. -/
def ijkClose (a b : Ijk) : Prop :=
  |a.I - b.I| ≤ tol ∧ |a.J - b.J| ≤ tol ∧ |a.K - b.K| ≤ tol

/-- Componentwise closeness of peck stages. -/
def stageClose (a b : Stage) : Prop :=
  |a.I - b.I| ≤ tol ∧ |a.J - b.J| ≤ tol ∧ |a.K - b.K| ≤ tol

/-- Semantic closeness of two macro-cycle records: every static parameter and
every dynamic triple agrees within `1e-6`. -/
def g66Close (a b : G66Rec) : Prop :=
  optClose a.static.R b.static.R ∧ optClose a.static.Z b.static.Z ∧
  optClose a.static.S b.static.S ∧ optClose a.static.T b.static.T ∧
  List.Forall₂ ijkClose a.dynamic b.dynamic

/-- Fieldwise closeness of fixed-cycle static parameters. -/
def g83StaticClose (a b : G83Static) : Prop :=
  optClose a.R b.R ∧ optClose a.Z b.Z ∧ optClose a.Q b.Q ∧ optClose a.F b.F ∧
  optClose a.P b.P ∧ optClose a.I b.I ∧ optClose a.J b.J ∧ optClose a.K b.K ∧
  optClose a.X b.X ∧ optClose a.Y b.Y

/-- Semantic closeness of two fixed-cycle records. -/
def g83Close (a b : G83Rec) : Prop :=
  g83StaticClose a.static b.static ∧ a.use_ijk_mode = b.use_ijk_mode ∧
  List.Forall₂ stageClose a.dynamic b.dynamic

/-- A value that `%g` renders exactly: unchanged by 6-significant-digit rounding
and within the fixed-notation exponent range, so that formatting and re-parsing
recover it without loss. -/
def gExact (v : ℚ) : Prop :=
  sigRound6 v = v ∧ (v = 0 ∨ (-4 ≤ decExp |v| ∧ decExp |v| ≤ 5))

/-- Well-formedness of a macro-cycle record under which the rewrite round-trip
is lossless: every present value is `%g`-exact, the optional `S`/`T` are absent
or beyond the `1e-6` omission threshold, and every dynamic triple has a member
beyond the `1e-6` omission threshold. -/
def wf66 (r : G66Rec) : Prop :=
  (∀ v ∈ r.static.R, gExact v) ∧ (∀ v ∈ r.static.Z, gExact v) ∧
  (∀ v ∈ r.static.S, gExact v ∧ tol < |v|) ∧
  (∀ v ∈ r.static.T, gExact v ∧ tol < |v|) ∧
  (∀ g ∈ r.dynamic, (gExact g.I ∧ gExact g.J ∧ gExact g.K) ∧
    (tol < |g.I| ∨ tol < |g.J| ∨ tol < |g.K|))

/-- Well-formedness of a fixed-cycle record under which the rewrite round-trip
is lossless: `%g`-exact values, the `X`/`Y` snapshot in sync with the static
parameters, and only the authoritative mode's peck parameters populated
(no stale `Q` in variable mode, zero `I`/`J`/`K` and a non-degenerate `Q` in
constant mode, a non-degenerate `I` in variable mode). -/
def wf83 (r : G83Rec) : Prop :=
  (∀ v ∈ r.static.R, gExact v) ∧ (∀ v ∈ r.static.Z, gExact v) ∧
  (∀ v ∈ r.static.F, gExact v) ∧ r.static.P = none ∧
  r.static.X = r.original_xy.1 ∧ r.static.Y = r.original_xy.2 ∧
  (∀ v ∈ r.static.X, gExact v) ∧ (∀ v ∈ r.static.Y, gExact v) ∧
  r.static.R.isSome = true ∧ r.static.Z.isSome = true ∧
  (∀ rv ∈ r.static.R, ∀ zv ∈ r.static.Z,
    r.dynamic = g83_to_ijk rv zv r.use_ijk_mode (r.static.Q.getD 0)
      (r.static.I.getD 0) (r.static.J.getD 0) (r.static.K.getD 0)) ∧
  (if r.use_ijk_mode then
     r.static.Q = none ∧
     (∃ iv, r.static.I = some iv ∧ gExact iv ∧ tol ≤ |iv|) ∧
     (∃ jv, r.static.J = some jv ∧ gExact jv) ∧
     (∃ kv, r.static.K = some kv ∧ gExact kv)
   else
     r.static.I = some 0 ∧ r.static.J = some 0 ∧ r.static.K = some 0 ∧
     (∃ qv, r.static.Q = some qv ∧ gExact qv ∧ tol ≤ |qv|))

/-- Token sequence of a list of explicit `I/J/K` triples as they appear on a
macro-cycle line. -/
def tripleToks (ts : List Ijk) : List (Char × ℚ) :=
  (ts.map (fun g => [('I', g.I), ('J', g.J), ('K', g.K)])).flatten

/-- The parameter tokens emitted by the `G66` branch of `update_g66_line`, in
emission order (the rendered line is these tokens formatted with `%g` after the
`G66 P9131` head). -/
def g66RewriteToks (st : G66Static) (dyn : List Ijk) : List (Char × ℚ) :=
  (match st.R with | some v => [('R', v)] | none => []) ++
  (match st.Z with | some v => [('Z', v)] | none => []) ++
  (match st.S with
   | some v => if tol < |v| then [('S', v)] else []
   | none => []) ++
  (match st.T with
   | some v => if tol < |v| then [('T', v)] else []
   | none => []) ++
  (dyn.map (fun g =>
    if tol < |g.I| ∨ tol < |g.J| ∨ tol < |g.K| then
      [('I', g.I), ('J', g.J), ('K', g.K)]
    else [])).flatten

/-- The parameter tokens emitted by the `G83` branch of `update_g66_line`. -/
def g83RewriteToks (xy : Option ℚ × Option ℚ) (st : G83Static) (use_ijk : Bool) :
    List (Char × ℚ) :=
  (match xy.1 with | some v => [('X', v)] | none => []) ++
  (match xy.2 with | some v => [('Y', v)] | none => []) ++
  (match st.Z with | some v => [('Z', v)] | none => []) ++
  (match st.R with | some v => [('R', v)] | none => []) ++
  (if use_ijk then
     (match st.I with | some v => [('I', v)] | none => []) ++
     (match st.J with | some v => [('J', v)] | none => []) ++
     (match st.K with | some v => [('K', v)] | none => [])
   else (match st.Q with | some v => [('Q', v)] | none => [])) ++
  (match st.F with | some v => [('F', v)] | none => [])

/-! ## General lemmas -/

theorem drillStep_cons (f r g0 c : ℚ) (m : Bool) (total cz : ℚ) (n : ℕ) (s : Stage) :
    drillStep f r g0 m c (total, cz, n) s =
      (total + (if n = 0 then |cz + s.I - r| / f
                else |r - (cz + c)| / g0 + |cz + s.I - (cz + c)| / f) +
         |cz + s.I - r| / g0, cz + s.I, n + 1) := by
  cases m <;> rfl

theorem drill_foldl_tail (f r g0 c : ℚ) (m : Bool) :
    ∀ (l : List Stage) (total cz : ℚ) (n : ℕ),
    (l.foldl (drillStep f r g0 m c) (total, cz, n + 1)).1
      = total + drilling_time_spec_tail f r g0 c cz l := by
  intro l
  induction l with
  | nil => intro total cz n; simp [drilling_time_spec_tail]
  | cons s tl ih =>
    intro total cz n
    rw [List.foldl_cons, drillStep_cons, if_neg (Nat.succ_ne_zero n), ih,
      drilling_time_spec_tail]
    ring

/-! ## Claim C10 -/

/-- Claim C10: the time estimator is independent of its cycle-mode argument —
`calc_drilling_time` returns the same result for `is_ijk_mode = true` and
`is_ijk_mode = false` on every input (the two kinematic branches are identical). -/
theorem C10_mode_independent (l : List Stage) (f r g0 c : ℚ) :
    calc_drilling_time l f r g0 true c = calc_drilling_time l f r g0 false c := rfl

/-! ## Claim C8 -/

/-- Claim C8: `calc_drilling_time` returns infinite time (`none`) whenever the
feedrate is non-positive; for a positive feedrate it returns exactly the §4.6
kinematic sum: the first stage feeds its whole increment from `R`, every later
stage rapids from `R` to the previous depth plus clearance and feeds the rest,
and every stage rapid-retracts from its target back to `R`. -/
theorem C8_estimate_time (l : List Stage) (f r g0 c : ℚ) (m : Bool) :
    (f ≤ 0 → calc_drilling_time l f r g0 m c = none) ∧
    (0 < f → calc_drilling_time l f r g0 m c =
      some (drilling_time_spec l f r g0 c)) := by
  constructor
  · intro h
    simp [calc_drilling_time, h]
  · intro h
    rw [calc_drilling_time, if_neg (not_le.mpr h)]
    congr 1
    cases l with
    | nil => rfl
    | cons s tl =>
      rw [List.foldl_cons, drillStep_cons, if_pos rfl,
        drill_foldl_tail f r g0 c m tl _ _ 0, drilling_time_spec]
      ring

/-- Witness for C8 at a concrete stage list. -/
theorem C8_estimate_time_witness :
    (calc_drilling_time [⟨-1, 0, 0⟩] 0 0 5000 true (1/10) = none) ∧
    (calc_drilling_time [⟨-1, 0, 0⟩] 100 0 5000 true (1/10) =
      some (drilling_time_spec [⟨-1, 0, 0⟩] 100 0 5000 (1/10))) :=
  ⟨(C8_estimate_time [⟨-1, 0, 0⟩] 0 0 5000 (1/10) true).1 le_rfl,
   (C8_estimate_time [⟨-1, 0, 0⟩] 100 0 5000 (1/10) true).2 (by norm_num)⟩

/-! ## Claim C5 -/

/-- Claim C5: `update_spindle_speed` with a non-positive new RPM, or on a record
whose tracked RPM line index does not resolve to a document line, fails and
leaves both the document text and the records (in particular the stored RPM)
unchanged. -/
theorem C5_update_spindle_guard (lines : List (List Char)) (entries : List Entry)
    (i : ℕ) (e : Entry) (new_rpm : ℚ) (hget : entries.get? i = some e)
    (hbad : new_rpm ≤ 0 ∨ e.rpm_line < 0 ∨ (lines.length : ℤ) ≤ e.rpm_line) :
    update_spindle_speed lines entries (i : ℤ) new_rpm = (false, lines, entries) := by
  have hlen : i < entries.length := List.get?_eq_some.mp hget |>.1
  rw [update_spindle_speed, if_neg]
  · by_cases hr : new_rpm ≤ 0
    · rw [if_pos hr]
    · rw [if_neg hr]
      have : ((i : ℤ)).toNat = i := Int.toNat_natCast i
      rw [this, hget]
      have hline : e.rpm_line < 0 ∨ (lines.length : ℤ) ≤ e.rpm_line := by
        rcases hbad with h | h
        · exact absurd h hr
        · exact h
      exact if_pos hline
  · push_neg
    constructor
    · exact Int.natCast_nonneg i
    · exact_mod_cast hlen

/-- Witness for C5: a one-record state with an unresolvable RPM line, and a
zero-RPM update. -/
theorem C5_update_spindle_guard_witness :
    update_spindle_speed [String.toList "S100"]
      [⟨String.toList "7", 0, 100, -1, CycleData.g66 ⟨⟨none, none, none, none⟩, []⟩⟩]
      ((0 : ℕ) : ℤ) 0 =
      (false, [String.toList "S100"],
       [⟨String.toList "7", 0, 100, -1, CycleData.g66 ⟨⟨none, none, none, none⟩, []⟩⟩]) :=
  C5_update_spindle_guard _ _ 0 _ 0 rfl (Or.inl le_rfl)

/-! ## Claim C6 -/

/-- Claim C6: for fixed positive material, coolant and tool-material factors the
DRI is strictly increasing in the depth-to-diameter ratio, and the strategy
tiers are exactly `DRI < 6 → DIRECT`, `6 ≤ DRI < 18 → Q_MODE`,
`18 ≤ DRI < 40 → IJK_DYNAMIC`, `40 ≤ DRI → DEEP_PROTECT`. -/
theorem C6_dri_monotone_tiers :
    (∀ diameter d1 d2 mat cool toolm : ℝ, 0 < diameter → 0 < mat → 0 < cool →
      0 < toolm → 0 ≤ d1 → d1 < d2 →
      calculate_dri diameter d1 mat cool toolm < calculate_dri diameter d2 mat cool toolm) ∧
    (∀ x : ℝ,
      (x < 6 → select_strategy x = Strategy.DIRECT) ∧
      (6 ≤ x → x < 18 → select_strategy x = Strategy.Q_MODE) ∧
      (18 ≤ x → x < 40 → select_strategy x = Strategy.IJK_DYNAMIC) ∧
      (40 ≤ x → select_strategy x = Strategy.DEEP_PROTECT)) := by
  constructor
  · intro diameter d1 d2 mat cool toolm hdia hmat hcool htool hd1 h12
    rw [calculate_dri, calculate_dri, if_neg (not_le.mpr hdia), if_neg (not_le.mpr hdia)]
    have hx : d1 / diameter < d2 / diameter := by gcongr
    have hpow : (d1 / diameter) ^ (1.4 : ℝ) < (d2 / diameter) ^ (1.4 : ℝ) :=
      Real.rpow_lt_rpow (div_nonneg hd1 hdia.le) hx (by norm_num)
    have hbase : (1.2 : ℝ) + (d1 / diameter) ^ (1.4 : ℝ)
        < 1.2 + (d2 / diameter) ^ (1.4 : ℝ) := by linarith
    exact mul_lt_mul_of_pos_right
      (mul_lt_mul_of_pos_right (mul_lt_mul_of_pos_right hbase hmat) hcool) htool
  · intro x
    refine ⟨fun h => ?_, fun h1 h2 => ?_, fun h1 h2 => ?_, fun h => ?_⟩
    · rw [select_strategy, if_pos h]
    · rw [select_strategy, if_neg (not_lt.mpr h1), if_pos h2]
    · rw [select_strategy, if_neg (not_lt.mpr (by linarith)), if_neg (not_lt.mpr h1),
        if_pos h2]
    · rw [select_strategy, if_neg (not_lt.mpr (by linarith)),
        if_neg (not_lt.mpr (by linarith)), if_neg (not_lt.mpr h)]


/-- Witness for C6 at concrete factors and DRI values. -/
theorem C6_dri_monotone_tiers_witness :
    calculate_dri 1 0 1 1 1 < calculate_dri 1 1 1 1 1 ∧
    select_strategy 7 = Strategy.Q_MODE :=
  ⟨C6_dri_monotone_tiers.1 1 0 1 1 1 1 (by norm_num) (by norm_num) (by norm_num)
    (by norm_num) le_rfl (by norm_num),
   (C6_dri_monotone_tiers.2 7).2.1 (by norm_num) (by norm_num)⟩

/-! ## Stage-loop lemmas -/

theorem g83LoopAux_succ_down (zB rP : ℚ) (u : Bool) (jr km : ℚ) (fuel : ℕ)
    (cz peck : ℚ) :
    g83LoopAux zB rP true u jr km (fuel + 1) cz peck =
      if cz - max (cz - peck) zB < tol then some []
      else if max (cz - peck) zB ≤ zB then
        some [⟨-(cz - max (cz - peck) zB), rP - max (cz - peck) zB, 0⟩]
      else
        (g83LoopAux zB rP true u jr km fuel (max (cz - peck) zB)
          (if u then (if peck - jr < km then km else peck - jr) else peck)).map
          (⟨-(cz - max (cz - peck) zB), rP - max (cz - peck) zB, 0⟩ :: ·) := by
  simp [g83LoopAux]

theorem g83LoopAux_succ_up (zB rP : ℚ) (u : Bool) (jr km : ℚ) (fuel : ℕ)
    (cz peck : ℚ) :
    g83LoopAux zB rP false u jr km (fuel + 1) cz peck =
      if min (cz + peck) zB - cz < tol then some []
      else if zB ≤ min (cz + peck) zB then
        some [⟨min (cz + peck) zB - cz, rP - min (cz + peck) zB, 0⟩]
      else
        (g83LoopAux zB rP false u jr km fuel (min (cz + peck) zB)
          (if u then (if peck - jr < km then km else peck - jr) else peck)).map
          (⟨min (cz + peck) zB - cz, rP - min (cz + peck) zB, 0⟩ :: ·) := by
  simp [g83LoopAux]

theorem tol_pos : (0 : ℚ) < tol := by norm_num [tol]

theorem g83LoopAux_isSome (z_bottom r_point : ℚ) (down use_ijk : Bool)
    (j_red k_min : ℚ) :
    ∀ (fuel : ℕ) (cz peck : ℚ), |z_bottom - cz| ≤ (fuel : ℚ) * tol →
    (g83LoopAux z_bottom r_point down use_ijk j_red k_min (fuel + 1) cz peck).isSome := by
  intro fuel
  induction fuel with
  | zero =>
    intro cz peck h
    have hcz : z_bottom = cz := by
      have h0 : |z_bottom - cz| ≤ 0 := by simpa using h
      have h1 : |z_bottom - cz| = 0 := le_antisymm h0 (abs_nonneg _)
      linarith [sub_eq_zero.mp (abs_eq_zero.mp h1)]
    cases down
    · rw [g83LoopAux_succ_up, if_pos]
      · simp
      · have : min (cz + peck) z_bottom ≤ z_bottom := min_le_right _ _
        have := tol_pos
        linarith [hcz]
    · rw [g83LoopAux_succ_down, if_pos]
      · simp
      · have : z_bottom ≤ max (cz - peck) z_bottom := le_max_right _ _
        have := tol_pos
        linarith [hcz]
  | succ fuel ih =>
    intro cz peck h
    cases down
    · rw [g83LoopAux_succ_up]
      by_cases hinc : min (cz + peck) z_bottom - cz < tol
      · rw [if_pos hinc]; simp
      · rw [if_neg hinc]
        by_cases hfin : z_bottom ≤ min (cz + peck) z_bottom
        · rw [if_pos hfin]; simp
        · rw [if_neg hfin]
          have hh : (g83LoopAux z_bottom r_point false use_ijk j_red k_min (fuel + 1)
              (min (cz + peck) z_bottom)
              (if use_ijk then (if peck - j_red < k_min then k_min else peck - j_red)
               else peck)).isSome := by
            apply ih
            have hlt : min (cz + peck) z_bottom < z_bottom := lt_of_not_ge hfin
            have hinc' : tol ≤ min (cz + peck) z_bottom - cz := le_of_not_gt hinc
            have := tol_pos
            have hcz : cz < z_bottom := by linarith
            rw [abs_of_nonneg (by linarith : (0:ℚ) ≤ z_bottom - min (cz + peck) z_bottom)]
            rw [abs_of_nonneg (by linarith : (0:ℚ) ≤ z_bottom - cz)] at h
            push_cast at h ⊢
            linarith
          obtain ⟨l, hl⟩ := Option.isSome_iff_exists.mp hh
          rw [hl]
          rfl
    · rw [g83LoopAux_succ_down]
      by_cases hinc : cz - max (cz - peck) z_bottom < tol
      · rw [if_pos hinc]; simp
      · rw [if_neg hinc]
        by_cases hfin : max (cz - peck) z_bottom ≤ z_bottom
        · rw [if_pos hfin]; simp
        · rw [if_neg hfin]
          have hh : (g83LoopAux z_bottom r_point true use_ijk j_red k_min (fuel + 1)
              (max (cz - peck) z_bottom)
              (if use_ijk then (if peck - j_red < k_min then k_min else peck - j_red)
               else peck)).isSome := by
            apply ih
            have hgt : z_bottom < max (cz - peck) z_bottom := lt_of_not_ge hfin
            have hinc' : tol ≤ cz - max (cz - peck) z_bottom := le_of_not_gt hinc
            have := tol_pos
            have hcz : z_bottom < cz := by linarith
            rw [abs_of_nonpos (by linarith : z_bottom - max (cz - peck) z_bottom ≤ 0)]
            rw [abs_of_nonpos (by linarith : z_bottom - cz ≤ 0)] at h
            push_cast at h ⊢
            linarith
          obtain ⟨l, hl⟩ := Option.isSome_iff_exists.mp hh
          rw [hl]
          rfl

theorem g83_run_isSome (r z : ℚ) (use_ijk : Bool) (qv iv jv kv : ℚ) :
    (g83_run r z use_ijk qv iv jv kv).isSome := by
  have hfuel : |z - r| ≤ ((((⌈|z - r| * 1000000⌉).toNat + 1 : ℕ) : ℚ)) * tol := by
    have h1 : |z - r| * 1000000 ≤ ((⌈|z - r| * 1000000⌉ : ℤ) : ℚ) := Int.le_ceil _
    have h0 : (0 : ℤ) ≤ ⌈|z - r| * 1000000⌉ :=
      Int.ceil_nonneg (by positivity)
    have h2 : (((⌈|z - r| * 1000000⌉).toNat : ℤ) : ℚ) = ((⌈|z - r| * 1000000⌉ : ℤ) : ℚ) := by
      exact_mod_cast congrArg (fun n : ℤ => (n : ℚ)) (Int.toNat_of_nonneg h0)
    rw [tol]
    push_cast at h2 ⊢
    rw [h2]
    linarith
  rw [g83_run]
  cases use_ijk
  · rw [if_neg Bool.false_ne_true]
    by_cases hq : |qv| ≤ tol
    · rw [if_pos hq]; rfl
    · rw [if_neg hq]
      exact g83LoopAux_isSome z r (decide (z < r)) false 0 0
        ((⌈|z - r| * 1000000⌉).toNat + 1) r |qv| hfuel
  · rw [if_pos rfl]
    by_cases hi : |iv| ≤ tol
    · rw [if_pos hi]; rfl
    · rw [if_neg hi]
      exact g83LoopAux_isSome z r (decide (z < r)) true |jv| |kv|
        ((⌈|z - r| * 1000000⌉).toNat + 1) r |iv| hfuel

/-! ## Claim C7 -/

/-- Claim C7: the peck-stage loop terminates with a finite stage list for every
input (the fuel of `g83_run` is never exhausted), and whenever the governing
peck value (`Q` in constant mode, initial `I` in variable mode) is `≤ 1e-6` it
returns the empty stage list instead of looping. -/
theorem C7_simulator_terminates (r z : ℚ) (use_ijk : Bool) (qv iv jv kv : ℚ) :
    (∃ l, g83_run r z use_ijk qv iv jv kv = some l) ∧
    (use_ijk = true → |iv| ≤ tol → g83_run r z use_ijk qv iv jv kv = some []) ∧
    (use_ijk = false → |qv| ≤ tol → g83_run r z use_ijk qv iv jv kv = some []) := by
  refine ⟨Option.isSome_iff_exists.mp (g83_run_isSome r z use_ijk qv iv jv kv),
    fun hu hiv => ?_, fun hu hqv => ?_⟩
  · subst hu
    rw [g83_run, if_pos rfl, if_pos hiv]
  · subst hu
    rw [g83_run, if_neg Bool.false_ne_true, if_pos hqv]

/-- Witness for C7 at a degenerate constant peck. -/
theorem C7_simulator_terminates_witness :
    g83_run 0 (-5) false 0 0 0 0 = some [] :=
  (C7_simulator_terminates 0 (-5) false 0 0 0 0).2.2 rfl (by norm_num [tol])

theorem incSum_nil : incSum [] = 0 := rfl

theorem incSum_cons (s : Stage) (l : List Stage) :
    incSum (s :: l) = |s.I| + incSum l := by
  simp [incSum]

theorem g83Loop_const_down (zB rP q : ℚ) (hq : tol < q) :
    ∀ (fuel : ℕ) (cz : ℚ) (l : List Stage), zB ≤ cz →
    g83LoopAux zB rP true false 0 0 fuel cz q = some l →
    (l.length : ℤ) ≤ ⌈(cz - zB) / q⌉ ∧ (∀ s ∈ l, |s.I| ≤ q) ∧
    (cz - zB) - tol < incSum l ∧ incSum l ≤ cz - zB := by
  have htol := tol_pos
  have hq0 : (0 : ℚ) < q := lt_trans htol hq
  intro fuel
  induction fuel with
  | zero =>
    intro cz l hcz hsome
    simp [g83LoopAux] at hsome
  | succ fuel ih =>
    intro cz l hcz hsome
    rw [g83LoopAux_succ_down] at hsome
    by_cases h1 : cz - max (cz - q) zB < tol
    · rw [if_pos h1] at hsome
      have hl : l = [] := by
        cases hsome
        rfl
      subst hl
      have hczB : cz - zB < tol := by
        rcases le_total (cz - q) zB with hc | hc
        · rw [max_eq_right hc] at h1
          exact h1
        · rw [max_eq_left hc] at h1
          linarith
      refine ⟨?_, by simp, by rw [incSum_nil]; linarith, by rw [incSum_nil]; linarith⟩
      simp only [List.length_nil, Nat.cast_zero]
      exact Int.ceil_nonneg (div_nonneg (by linarith) hq0.le)
    · rw [if_neg h1] at hsome
      have h1' : tol ≤ cz - max (cz - q) zB := le_of_not_gt h1
      by_cases h2 : max (cz - q) zB ≤ zB
      · rw [if_pos h2] at hsome
        have hm : max (cz - q) zB = zB := le_antisymm h2 (le_max_right _ _)
        rw [hm] at hsome h1'
        have hl : l = [⟨-(cz - zB), rP - zB, 0⟩] := by
          cases hsome
          rfl
        subst hl
        have hle : cz - zB ≤ q := by
          have := le_max_left (cz - q) zB
          rw [hm] at this
          linarith
        refine ⟨?_, ?_, ?_, ?_⟩
        · simp only [List.length_singleton, Nat.cast_one]
          have := Int.ceil_pos.mpr (div_pos (by linarith : (0:ℚ) < cz - zB) hq0)
          omega
        · intro s hs
          rcases List.mem_singleton.mp hs with rfl
          simp only [abs_neg]
          rw [abs_of_nonneg (by linarith)]
          exact hle
        · rw [incSum_cons, incSum_nil]
          simp only [abs_neg]
          rw [abs_of_nonneg (by linarith)]
          linarith
        · rw [incSum_cons, incSum_nil]
          simp only [abs_neg]
          rw [abs_of_nonneg (by linarith)]
          linarith
      · rw [if_neg h2] at hsome
        have hzm : zB < max (cz - q) zB := lt_of_not_ge h2
        have hm : max (cz - q) zB = cz - q := by
          rcases le_total (cz - q) zB with hc | hc
          · rw [max_eq_right hc] at hzm
            exact absurd hzm (lt_irrefl _)
          · exact max_eq_left hc
        rw [hm] at hsome h1' hzm
        rcases Option.map_eq_some'.mp hsome with ⟨l', hl', rfl⟩
        have hpk : (if false then (if q - 0 < 0 then (0:ℚ) else q - 0) else q) = q := rfl
        rw [hpk] at hl'
        obtain ⟨hlen, hmem, hlow, hhigh⟩ := ih (cz - q) l' (by linarith) hl'
        refine ⟨?_, ?_, ?_, ?_⟩
        · have hdiv : (cz - q - zB) / q = (cz - zB) / q - 1 := by
            field_simp
            ring
          rw [hdiv, Int.ceil_sub_one] at hlen
          simp only [List.length_cons]
          push_cast
          linarith
        · intro s hs
          rcases List.mem_cons.mp hs with rfl | hs'
          · have : cz - (cz - q) = q := by ring
            rw [this]
            simp only [abs_neg]
            rw [abs_of_nonneg hq0.le]
          · exact hmem s hs'
        · rw [incSum_cons]
          have : cz - (cz - q) = q := by ring
          rw [this]
          simp only [abs_neg]
          rw [abs_of_nonneg hq0.le]
          linarith
        · rw [incSum_cons]
          have : cz - (cz - q) = q := by ring
          rw [this]
          simp only [abs_neg]
          rw [abs_of_nonneg hq0.le]
          linarith

theorem g83Loop_const_up (zB rP q : ℚ) (hq : tol < q) :
    ∀ (fuel : ℕ) (cz : ℚ) (l : List Stage), cz ≤ zB →
    g83LoopAux zB rP false false 0 0 fuel cz q = some l →
    (l.length : ℤ) ≤ ⌈(zB - cz) / q⌉ ∧ (∀ s ∈ l, |s.I| ≤ q) ∧
    (zB - cz) - tol < incSum l ∧ incSum l ≤ zB - cz := by
  have htol := tol_pos
  have hq0 : (0 : ℚ) < q := lt_trans htol hq
  intro fuel
  induction fuel with
  | zero =>
    intro cz l hcz hsome
    simp [g83LoopAux] at hsome
  | succ fuel ih =>
    intro cz l hcz hsome
    rw [g83LoopAux_succ_up] at hsome
    by_cases h1 : min (cz + q) zB - cz < tol
    · rw [if_pos h1] at hsome
      have hl : l = [] := by
        cases hsome
        rfl
      subst hl
      have hczB : zB - cz < tol := by
        rcases le_total (cz + q) zB with hc | hc
        · rw [min_eq_left hc] at h1
          linarith
        · rw [min_eq_right hc] at h1
          linarith
      refine ⟨?_, by simp, by rw [incSum_nil]; linarith, by rw [incSum_nil]; linarith⟩
      simp only [List.length_nil, Nat.cast_zero]
      exact Int.ceil_nonneg (div_nonneg (by linarith) hq0.le)
    · rw [if_neg h1] at hsome
      have h1' : tol ≤ min (cz + q) zB - cz := le_of_not_gt h1
      by_cases h2 : zB ≤ min (cz + q) zB
      · rw [if_pos h2] at hsome
        have hm : min (cz + q) zB = zB := le_antisymm (min_le_right _ _) h2
        rw [hm] at hsome h1'
        have hl : l = [⟨zB - cz, rP - zB, 0⟩] := by
          cases hsome
          rfl
        subst hl
        have hle : zB - cz ≤ q := by
          have := min_le_left (cz + q) zB
          rw [hm] at this
          linarith
        refine ⟨?_, ?_, ?_, ?_⟩
        · simp only [List.length_singleton, Nat.cast_one]
          have := Int.ceil_pos.mpr (div_pos (by linarith : (0:ℚ) < zB - cz) hq0)
          omega
        · intro s hs
          rcases List.mem_singleton.mp hs with rfl
          rw [abs_of_nonneg (by linarith : (0:ℚ) ≤ zB - cz)]
          exact hle
        · rw [incSum_cons, incSum_nil, abs_of_nonneg (by linarith : (0:ℚ) ≤ zB - cz)]
          linarith
        · rw [incSum_cons, incSum_nil, abs_of_nonneg (by linarith : (0:ℚ) ≤ zB - cz)]
          linarith
      · rw [if_neg h2] at hsome
        have hzm : min (cz + q) zB < zB := lt_of_not_ge h2
        have hm : min (cz + q) zB = cz + q := by
          rcases le_total (cz + q) zB with hc | hc
          · exact min_eq_left hc
          · rw [min_eq_right hc] at hzm
            exact absurd hzm (lt_irrefl _)
        rw [hm] at hsome h1' hzm
        rcases Option.map_eq_some'.mp hsome with ⟨l', hl', rfl⟩
        have hpk : (if false then (if q - 0 < 0 then (0:ℚ) else q - 0) else q) = q := rfl
        rw [hpk] at hl'
        obtain ⟨hlen, hmem, hlow, hhigh⟩ := ih (cz + q) l' (by linarith) hl'
        refine ⟨?_, ?_, ?_, ?_⟩
        · have hdiv : (zB - (cz + q)) / q = (zB - cz) / q - 1 := by
            field_simp
            ring
          rw [hdiv, Int.ceil_sub_one] at hlen
          simp only [List.length_cons]
          push_cast
          linarith
        · intro s hs
          rcases List.mem_cons.mp hs with rfl | hs'
          · have : cz + q - cz = q := by ring
            rw [this, abs_of_nonneg hq0.le]
          · exact hmem s hs'
        · rw [incSum_cons]
          have : cz + q - cz = q := by ring
          rw [this, abs_of_nonneg hq0.le]
          linarith
        · rw [incSum_cons]
          have : cz + q - cz = q := by ring
          rw [this, abs_of_nonneg hq0.le]
          linarith

/-! ## Claim C3 -/

/-- Claim C3: in constant-peck mode with `|Q| > 1e-6` the simulator produces at
most `⌈|Z − R| / |Q|⌉` stages, every stage's depth-increment magnitude is at
most `|Q|`, and the cumulative depth after the final stage equals `|Z − R|`
within `1e-6`; in particular `R = 0, Z = -3, Q = 1` yields exactly three stages
of increment `-1.0`, the last retracting from depth `-3.0` exactly. -/
theorem C3_constant_peck (R Z Q : ℚ) (hq : tol < |Q|) :
    ((g83_to_ijk R Z false Q 0 0 0).length : ℤ) ≤ ⌈|Z - R| / |Q|⌉ ∧
    (∀ s ∈ g83_to_ijk R Z false Q 0 0 0, |s.I| ≤ |Q|) ∧
    abs (incSum (g83_to_ijk R Z false Q 0 0 0) - |Z - R|) < tol ∧
    g83_to_ijk 0 (-3) false 1 0 0 0 = [⟨-1, 1, 0⟩, ⟨-1, 2, 0⟩, ⟨-1, 3, 0⟩] := by
  have htol := tol_pos
  obtain ⟨l, hl⟩ := Option.isSome_iff_exists.mp (g83_run_isSome R Z false Q 0 0 0)
  have hto : g83_to_ijk R Z false Q 0 0 0 = l := by
    rw [g83_to_ijk, hl]
    rfl
  rw [g83_run, if_neg Bool.false_ne_true, if_neg (not_le.mpr hq)] at hl
  by_cases hZR : Z < R
  · rw [decide_eq_true hZR] at hl
    obtain ⟨hlen, hmem, hlow, hhigh⟩ :=
      g83Loop_const_down Z R |Q| hq _ R l (le_of_lt hZR) hl
    have habs : |Z - R| = R - Z := by
      rw [abs_of_nonpos (by linarith)]
      ring
    rw [hto, habs]
    refine ⟨hlen, hmem, ?_, by with_unfolding_all decide⟩
    rw [abs_of_nonpos (by linarith)]
    linarith
  · rw [decide_eq_false hZR] at hl
    have hRZ : R ≤ Z := not_lt.mp hZR
    obtain ⟨hlen, hmem, hlow, hhigh⟩ :=
      g83Loop_const_up Z R |Q| hq _ R l hRZ hl
    have habs : |Z - R| = Z - R := abs_of_nonneg (by linarith)
    rw [hto, habs]
    refine ⟨hlen, hmem, ?_, by with_unfolding_all decide⟩
    rw [abs_of_nonpos (by linarith)]
    linarith

/-- Witness for C3 at the spec scenario `R = 0, Z = -3, Q = 1`. -/
theorem C3_constant_peck_witness :
    ((g83_to_ijk 0 (-3) false 1 0 0 0).length : ℤ) ≤ ⌈|(-3 : ℚ) - 0| / |(1 : ℚ)|⌉ ∧
    (∀ s ∈ g83_to_ijk 0 (-3) false 1 0 0 0, |s.I| ≤ |(1 : ℚ)|) ∧
    abs (incSum (g83_to_ijk 0 (-3) false 1 0 0 0) - |(-3 : ℚ) - 0|) < tol ∧
    g83_to_ijk 0 (-3) false 1 0 0 0 = [⟨-1, 1, 0⟩, ⟨-1, 2, 0⟩, ⟨-1, 3, 0⟩] :=
  C3_constant_peck 0 (-3) 1 (by norm_num [tol])

/-! ## Token-loop lemmas for the macro-cycle extractor -/

theorem g66Step_R (st : G66Static) (temp : TempIjk) (dyn : List Ijk) (v : ℚ) :
    g66Step (st, temp, dyn) ('R', v) = ({ st with R := some v }, temp, dyn) := rfl

theorem g66Step_Z (st : G66Static) (temp : TempIjk) (dyn : List Ijk) (v : ℚ) :
    g66Step (st, temp, dyn) ('Z', v) = ({ st with Z := some v }, temp, dyn) := rfl

theorem g66Step_S (st : G66Static) (temp : TempIjk) (dyn : List Ijk) (v : ℚ) :
    g66Step (st, temp, dyn) ('S', v) = ({ st with S := some v }, temp, dyn) := rfl

theorem g66Step_T (st : G66Static) (temp : TempIjk) (dyn : List Ijk) (v : ℚ) :
    g66Step (st, temp, dyn) ('T', v) = ({ st with T := some v }, temp, dyn) := rfl

theorem g66Step_I_open (st : G66Static) (dyn : List Ijk) (v : ℚ) :
    g66Step (st, ⟨none, none, none⟩, dyn) ('I', v) =
      (st, ⟨some v, none, none⟩, dyn) := rfl

theorem g66Step_J_open (st : G66Static) (dyn : List Ijk) (a v : ℚ) :
    g66Step (st, ⟨some a, none, none⟩, dyn) ('J', v) =
      (st, ⟨some a, some v, none⟩, dyn) := rfl

theorem g66Step_K_open (st : G66Static) (dyn : List Ijk) (a b v : ℚ) :
    g66Step (st, ⟨some a, some b, none⟩, dyn) ('K', v) =
      (st, ⟨some a, some b, some v⟩, dyn) := rfl

theorem g66Step_I_closes (st : G66Static) (dyn : List Ijk) (a b c v : ℚ) :
    g66Step (st, ⟨some a, some b, some c⟩, dyn) ('I', v) =
      (st, ⟨some v, none, none⟩,
       if is_zero_set ⟨a, b, c⟩ then dyn else dyn ++ [⟨a, b, c⟩]) := rfl

theorem g66Finalize_full (st : G66Static) (dyn : List Ijk) (a b c : ℚ) :
    g66Finalize (st, ⟨some a, some b, some c⟩, dyn) =
      (st, if is_zero_set ⟨a, b, c⟩ then dyn else dyn ++ [⟨a, b, c⟩]) := rfl

theorem g66Finalize_empty (st : G66Static) (dyn : List Ijk) :
    g66Finalize (st, ⟨none, none, none⟩, dyn) = (st, dyn) := rfl

theorem tripleToks_cons (t : Ijk) (ts : List Ijk) :
    tripleToks (t :: ts) =
      ('I', t.I) :: ('J', t.J) :: ('K', t.K) :: tripleToks ts := rfl

theorem g66_static_prefix (pre : List (Char × ℚ))
    (h : ∀ cv ∈ pre, cv.1 = 'R' ∨ cv.1 = 'Z' ∨ cv.1 = 'S' ∨ cv.1 = 'T') :
    ∀ (st : G66Static) (temp : TempIjk) (dyn : List Ijk),
    ∃ st', pre.foldl g66Step (st, temp, dyn) = (st', temp, dyn) := by
  induction pre with
  | nil => exact fun st temp dyn => ⟨st, rfl⟩
  | cons cv pre ih =>
    intro st temp dyn
    have hcv := h cv (List.mem_cons_self cv pre)
    have hrest : ∀ cv ∈ pre, cv.1 = 'R' ∨ cv.1 = 'Z' ∨ cv.1 = 'S' ∨ cv.1 = 'T' :=
      fun x hx => h x (List.mem_cons_of_mem _ hx)
    rcases cv with ⟨c, v⟩
    rw [List.foldl_cons]
    rcases hcv with rfl | rfl | rfl | rfl
    · rw [g66Step_R]
      exact ih hrest _ _ _
    · rw [g66Step_Z]
      exact ih hrest _ _ _
    · rw [g66Step_S]
      exact ih hrest _ _ _
    · rw [g66Step_T]
      exact ih hrest _ _ _

theorem g66_trip_fold :
    ∀ (ts : List Ijk) (st : G66Static) (dyn : List Ijk) (a b c : ℚ),
    g66Finalize ((tripleToks ts).foldl g66Step (st, ⟨some a, some b, some c⟩, dyn)) =
      (st, dyn ++ (Ijk.mk a b c :: ts).filter (fun g => !is_zero_set g)) := by
  intro ts
  induction ts with
  | nil =>
    intro st dyn a b c
    rw [show tripleToks [] = [] from rfl, List.foldl_nil, g66Finalize_full,
      List.filter_cons, List.filter_nil]
    by_cases hz : is_zero_set ⟨a, b, c⟩
    · rw [if_pos hz]
      simp [hz]
    · rw [if_neg hz]
      simp [hz]
  | cons t ts ih =>
    intro st dyn a b c
    rw [tripleToks_cons, List.foldl_cons, g66Step_I_closes, List.foldl_cons,
      g66Step_J_open, List.foldl_cons, g66Step_K_open]
    rcases t with ⟨ta, tb, tc⟩
    rw [ih st _ ta tb tc, List.filter_cons]
    by_cases hz : is_zero_set ⟨a, b, c⟩
    · rw [if_pos hz]
      simp [hz, List.filter_cons]
    · rw [if_neg hz]
      simp [hz, List.append_assoc, List.filter_cons]

theorem g66Step_dyn_invariant (acc : G66Static × TempIjk × List Ijk) (cv : Char × ℚ)
    (h : ∀ g ∈ acc.2.2, is_zero_set g = false) :
    ∀ g ∈ (g66Step acc cv).2.2, is_zero_set g = false := by
  rcases acc with ⟨st, temp, dyn⟩
  rcases cv with ⟨c, v⟩
  intro g hg
  simp only [g66Step] at hg
  split_ifs at hg with h1 h2 h3 h4 h5 h6 h7 h8 h9 h10 h11 h12 h13
  all_goals
    first
    | exact h g hg
    | (rcases List.mem_append.mp hg with hg' | hg'
       · exact h g hg'
       · rcases List.mem_singleton.mp hg' with rfl
         simp_all)

theorem g66_foldl_dyn_invariant :
    ∀ (toks : List (Char × ℚ)) (acc : G66Static × TempIjk × List Ijk),
    (∀ g ∈ acc.2.2, is_zero_set g = false) →
    ∀ g ∈ (toks.foldl g66Step acc).2.2, is_zero_set g = false := by
  intro toks
  induction toks with
  | nil => exact fun acc h => h
  | cons cv toks ih =>
    intro acc h
    rw [List.foldl_cons]
    exact ih _ (g66Step_dyn_invariant acc cv h)

theorem g66Finalize_dyn_invariant (r : G66Static × TempIjk × List Ijk)
    (h : ∀ g ∈ r.2.2, is_zero_set g = false) :
    ∀ g ∈ (g66Finalize r).2, is_zero_set g = false := by
  rcases r with ⟨st, temp, dyn⟩
  intro g hg
  simp only [g66Finalize] at hg
  split_ifs at hg with h1 h2
  all_goals
    first
    | exact h g (by simpa using hg)
    | (rcases List.mem_append.mp
          (by simpa using hg : g ∈ dyn ++ [fill_missing_ijk temp]) with hg' | hg'
       · exact h g hg'
       · rcases List.mem_singleton.mp hg' with rfl
         simp_all)

/-! ## Claim C2 -/

/-- Claim C2: on a macro-cycle line whose `I/J/K` region is a sequence of
explicit triples, extraction returns exactly the non-all-zero triples, in source
order (so exactly `N` groups when `N` triples are non-zero, however many
all-zero triples are interleaved); and for every line, `dynamic_params` never
contains a triple whose members are all zero within `1e-6`. -/
theorem C2_triple_extraction :
    (∀ (pre : List (Char × ℚ)) (ts : List Ijk),
      (∀ cv ∈ pre, cv.1 = 'R' ∨ cv.1 = 'Z' ∨ cv.1 = 'S' ∨ cv.1 = 'T') →
      (parse_g66_tokens (pre ++ tripleToks ts)).2 =
        ts.filter (fun g => !is_zero_set g)) ∧
    (∀ (line : List Char), ∀ g ∈ (parse_g66_line line).dynamic,
      ¬(|g.I| < tol ∧ |g.J| < tol ∧ |g.K| < tol)) := by
  constructor
  · intro pre ts hpre
    rw [parse_g66_tokens, List.foldl_append]
    obtain ⟨st', hst'⟩ := g66_static_prefix pre hpre
      ⟨none, none, none, none⟩ ⟨none, none, none⟩ []
    rw [hst']
    cases ts with
    | nil =>
      rw [show tripleToks [] = [] from rfl, List.foldl_nil, g66Finalize_empty,
        List.filter_nil]
    | cons t ts =>
      rw [tripleToks_cons, List.foldl_cons, g66Step_I_open, List.foldl_cons,
        g66Step_J_open, List.foldl_cons, g66Step_K_open, g66_trip_fold]
      simp
  · intro line g hg
    have hinv : ∀ g ∈ (parse_g66_line line).dynamic, is_zero_set g = false := by
      intro g hg
      rw [parse_g66_line] at hg
      exact g66Finalize_dyn_invariant _
        (g66_foldl_dyn_invariant _ _ (by simp)) g hg
    have := hinv g hg
    rw [is_zero_set] at this
    intro ⟨hI, hJ, hK⟩
    rw [decide_eq_true hI, decide_eq_true hJ, decide_eq_true hK] at this
    simp at this

/-- Witness for C2 at a concrete prefix and triple list with an interleaved
all-zero triple. -/
theorem C2_triple_extraction_witness :
    (parse_g66_tokens ([('R', -1), ('Z', -3)] ++
        tripleToks [⟨-1, 0, 0⟩, ⟨0, 0, 0⟩, ⟨-2, 1/2, 50⟩])).2 =
      [⟨-1, 0, 0⟩, ⟨-2, 1/2, 50⟩] := by
  have h := C2_triple_extraction.1 [('R', -1), ('Z', -3)]
    [⟨-1, 0, 0⟩, ⟨0, 0, 0⟩, ⟨-2, 1/2, 50⟩] (by with_unfolding_all decide)
  rw [h]
  with_unfolding_all decide

/-! ## Claim C9 -/

/-- Claim C9 as stated is false: on the scenario line the all-zero triple is
filtered at extraction, so the extractor returns two dynamic groups, not three. -/
theorem C9_scenario_counterexample :
    ¬ ((parse_g66_line (String.toList
        "G66 P9131 R-0.2 Z-2.9 I-2.9 J0.45 K100 I0 J0 K0 I-1.0 J0.2 K50")).dynamic.length
        = 3) := by
  with_unfolding_all decide

/-- Claim C9 (amended): on the scenario macro line with `R=-0.2`, `Z=-2.9` and
literal triples `(I-2.9, J0.45, K100)`, `(I0, J0, K0)`, `(I-1.0, J0.2, K50)`,
extraction yields exactly the two non-zero dynamic groups, in source order and
matching the literal tokens, the all-zero triple being filtered out. -/
theorem C9_scenario_amended :
    (parse_g66_line (String.toList
        "G66 P9131 R-0.2 Z-2.9 I-2.9 J0.45 K100 I0 J0 K0 I-1.0 J0.2 K50")).static.R
        = some (-2/10) ∧
    (parse_g66_line (String.toList
        "G66 P9131 R-0.2 Z-2.9 I-2.9 J0.45 K100 I0 J0 K0 I-1.0 J0.2 K50")).static.Z
        = some (-29/10) ∧
    (parse_g66_line (String.toList
        "G66 P9131 R-0.2 Z-2.9 I-2.9 J0.45 K100 I0 J0 K0 I-1.0 J0.2 K50")).dynamic
        = [⟨-29/10, 45/100, 100⟩, ⟨-1, 2/10, 50⟩] := by
  refine ⟨?_, ?_, ?_⟩ <;> with_unfolding_all decide

/-! ## Scan-state lemmas -/

theorem scanStep_idx (lines : List (List Char)) (st st' : ScanState) (l : List Char)
    (h : scanStep lines st l = some st') : st'.idx = st.idx + 1 := by
  rw [scanStep] at h
  split at h
  · cases h
    rfl
  · cases h

theorem parse_file_states_idx :
    ∀ (lines : List (List Char)) (n : ℕ) (st : ScanState), n ≤ lines.length →
    parse_file_states lines n = some st → st.idx = n := by
  intro lines n
  induction n with
  | zero =>
    intro st _ h
    cases h
    rfl
  | succ n ih =>
    intro st hn h
    rw [parse_file_states] at h
    rcases Option.bind_eq_some.mp h with ⟨st0, hst0, hstep⟩
    have hget : ∃ l, lines.get? n = some l := by
      rw [List.get?_eq_get (by omega : n < lines.length)]
      exact ⟨_, rfl⟩
    rcases hget with ⟨l, hl⟩
    rw [hl] at hstep
    rw [scanStep_idx lines st0 st l hstep, ih st0 (by omega) hst0]

/-! ## Claim C4 -/

/-- Claim C4 (amended): during the scan, a line that does not contain the macro
marker `G66` (whether or not the sub-program selector `P9131` appears anywhere)
has its first `S<digits>` token recorded as the current RPM together with the
line's index, while any line containing `G66` leaves the tracked RPM state
untouched.  (The source tests only for the `G66` marker, not for the full
macro-cycle line.) -/
theorem C4_rpm_tracking (lines : List (List Char)) (n : ℕ) (l : List Char)
    (st st' : ScanState) (hline : lines.get? n = some l)
    (hst : parse_file_states lines n = some st)
    (hst' : parse_file_states lines (n + 1) = some st') :
    (hasSub (String.toList "G66") l = false →
      ∀ k, firstSNum l = some k →
        st'.current_spindle_rpm = (k : ℤ) ∧ st'.current_spindle_line = (n : ℤ)) ∧
    (hasSub (String.toList "G66") l = true →
      st'.current_spindle_rpm = st.current_spindle_rpm ∧
      st'.current_spindle_line = st.current_spindle_line) := by
  have hn : n < lines.length := List.get?_eq_some.mp hline |>.1
  have hidx : st.idx = n := parse_file_states_idx lines n st (by omega) hst
  have hstep : scanStep lines st l = some st' := by
    rw [parse_file_states, hst] at hst'
    simpa only [Option.some_bind, hline] using hst'
  constructor
  · intro hg66 k hS
    rw [scanStep, hg66, hS] at hstep
    simp only [Bool.not_false, if_true] at hstep
    split at hstep
    · cases hstep
      exact ⟨rfl, by rw [← hidx]⟩
    · cases hstep
  · intro hg66
    rw [scanStep, hg66] at hstep
    simp only [Bool.not_true] at hstep
    rw [if_neg Bool.false_ne_true] at hstep
    split at hstep
    · cases hstep
      exact ⟨rfl, rfl⟩
    · cases hstep

/-- Claim C4 as stated is false: `"G66 S500"` is not the macro cycle line (it
lacks the sub-program selector `P9131`) and carries an `S<digits>` token, yet
after the scan processes it the tracked RPM is still 0 and the RPM line index
still -1 — the code skips RPM tracking on any line containing the marker `G66`
alone. -/
theorem C4_rpm_tracking_counterexample :
    hasSub (String.toList "G66") (String.toList "G66 S500") = true ∧
    hasSub (String.toList "P9131") (String.toList "G66 S500") = false ∧
    firstSNum (String.toList "G66 S500") = some 500 ∧
    (parse_file_states [String.toList "G66 S500"] 1).map
      ScanState.current_spindle_rpm = some 0 ∧
    (parse_file_states [String.toList "G66 S500"] 1).map
      ScanState.current_spindle_line = some (-1) := by
  refine ⟨?_, ?_, ?_, ?_, ?_⟩ <;> with_unfolding_all decide

/-- Witness for C4 on a one-line document whose line carries an RPM token. -/
theorem C4_rpm_tracking_witness :
    (⟨1, String.toList "Unknown", [], 1200, 0, []⟩ : ScanState).current_spindle_rpm
        = ((1200 : ℕ) : ℤ) ∧
    (⟨1, String.toList "Unknown", [], 1200, 0, []⟩ : ScanState).current_spindle_line
        = ((0 : ℕ) : ℤ) :=
  (C4_rpm_tracking [String.toList "S1200"] 0 (String.toList "S1200") initScan
      ⟨1, String.toList "Unknown", [], 1200, 0, []⟩
      (by with_unfolding_all decide) (by with_unfolding_all decide)
      (by with_unfolding_all decide)).1
    (by with_unfolding_all decide) 1200 (by with_unfolding_all decide)

/-! ## Digit-string lemmas -/

theorem digsVal_foldl (l : List Char) :
    ∀ a : ℕ, l.foldl (fun a c => 10 * a + digVal c) a = a * 10 ^ l.length + digsVal l := by
  induction l with
  | nil => intro a; simp [digsVal]
  | cons c cs ih =>
    intro a
    have h2 : digsVal (c :: cs) = (10 * 0 + digVal c) * 10 ^ cs.length + digsVal cs := by
      rw [digsVal, List.foldl_cons, ih]
    rw [List.foldl_cons, ih (10 * a + digVal c), h2, List.length_cons]
    ring

theorem digsVal_append (a b : List Char) :
    digsVal (a ++ b) = digsVal a * 10 ^ b.length + digsVal b := by
  rw [digsVal, List.foldl_append, ← digsVal, digsVal_foldl]

theorem takeDigs_append (ds rest : List Char) (hds : ∀ c ∈ ds, c.isDigit = true)
    (hrest : ∀ c, rest.head? = some c → c.isDigit = false) :
    takeDigs (ds ++ rest) = (ds, rest) := by
  induction ds with
  | nil =>
    cases rest with
    | nil => rfl
    | cons c t => simp [takeDigs, hrest c rfl]
  | cons d ds ih =>
    rw [List.cons_append]
    simp only [takeDigs, hds d (List.mem_cons_self d ds), if_true]
    rw [ih (fun c hc => hds c (List.mem_cons_of_mem _ hc))]

theorem numBody_int (ds rest : List Char) (hne : ds ≠ [])
    (hds : ∀ c ∈ ds, c.isDigit = true)
    (hrest : ∀ c, rest.head? = some c → c.isDigit = false ∧ ¬(c = '.')) :
    numBody (ds ++ rest) = some ((digsVal ds : ℚ), rest) := by
  have htd : takeDigs (ds ++ rest) = (ds, rest) :=
    takeDigs_append ds rest hds (fun c hc => (hrest c hc).1)
  rw [numBody, htd]
  cases rest with
  | nil =>
    simp [hne]
  | cons c t =>
    obtain ⟨hcd, hcdot⟩ := hrest c rfl
    split
    · next r2 heq =>
      exact absurd (List.head_eq_of_cons_eq heq.symm).symm hcdot
    · simp [hne]

theorem numBody_frac (d1 d2 rest : List Char)
    (hd1 : ∀ c ∈ d1, c.isDigit = true) (hne2 : d2 ≠ [])
    (hd2 : ∀ c ∈ d2, c.isDigit = true)
    (hrest : ∀ c, rest.head? = some c → c.isDigit = false) :
    numBody (d1 ++ '.' :: d2 ++ rest) =
      some ((digsVal d1 : ℚ) + (digsVal d2 : ℚ) / (10 : ℚ) ^ d2.length, rest) := by
  have htd1 : takeDigs (d1 ++ '.' :: (d2 ++ rest)) = (d1, '.' :: (d2 ++ rest)) :=
    takeDigs_append d1 ('.' :: (d2 ++ rest)) hd1 (by
      intro c hc
      cases hc
      rfl)
  have htd2 : takeDigs (d2 ++ rest) = (d2, rest) := takeDigs_append d2 rest hd2 hrest
  have hassoc : d1 ++ '.' :: d2 ++ rest = d1 ++ '.' :: (d2 ++ rest) := by
    simp
  rw [hassoc, numBody, htd1]
  simp [htd2, hne2]

theorem digsVal_cons (c : Char) (cs : List Char) :
    digsVal (c :: cs) = digVal c * 10 ^ cs.length + digsVal cs := by
  have := digsVal_foldl cs (10 * 0 + digVal c)
  rw [digsVal, List.foldl_cons, this]
  ring

theorem char_ofNat_digit (n : ℕ) (h : n < 10) :
    (Char.ofNat (48 + n)).isDigit = true ∧ digVal (Char.ofNat (48 + n)) = n := by
  interval_cases n <;> exact ⟨rfl, rfl⟩

theorem natCharsAux_spec :
    ∀ (f n : ℕ), n < f →
      (∀ c ∈ natCharsAux f n, c.isDigit = true) ∧
      digsVal (natCharsAux f n) = n ∧ natCharsAux f n ≠ [] := by
  intro f
  induction f with
  | zero => intro n h; omega
  | succ f ih =>
    intro n h
    by_cases h10 : n < 10
    · rw [natCharsAux, if_pos h10]
      obtain ⟨hd, hv⟩ := char_ofNat_digit n h10
      refine ⟨?_, ?_, by simp⟩
      · intro c hc
        rcases List.mem_singleton.mp hc with rfl
        exact hd
      · rw [digsVal_cons]
        simp [hv, digsVal]
    · rw [natCharsAux, if_neg h10]
      have hdiv : n / 10 < f := by omega
      obtain ⟨ihd, ihv, ihne⟩ := ih (n / 10) hdiv
      obtain ⟨hd, hv⟩ := char_ofNat_digit (n % 10) (Nat.mod_lt n (by omega))
      refine ⟨?_, ?_, by simp⟩
      · intro c hc
        rcases List.mem_append.mp hc with hc' | hc'
        · exact ihd c hc'
        · rcases List.mem_singleton.mp hc' with rfl
          exact hd
      · rw [digsVal_append, ihv]
        simp only [List.length_singleton, pow_one, digsVal_cons, hv]
        simp [digsVal]
        omega

theorem natChars_digits (n : ℕ) : ∀ c ∈ natChars n, c.isDigit = true :=
  (natCharsAux_spec (n + 1) n (by omega)).1

theorem digsVal_natChars (n : ℕ) : digsVal (natChars n) = n :=
  (natCharsAux_spec (n + 1) n (by omega)).2.1

theorem natChars_ne_nil (n : ℕ) : natChars n ≠ [] :=
  (natCharsAux_spec (n + 1) n (by omega)).2.2

theorem natCharsAux_len_bounds :
    ∀ (f n : ℕ), n < f → 1 ≤ n →
      10 ^ ((natCharsAux f n).length - 1) ≤ n ∧ n < 10 ^ (natCharsAux f n).length := by
  intro f
  induction f with
  | zero => intro n h; omega
  | succ f ih =>
    intro n h h1
    by_cases h10 : n < 10
    · rw [natCharsAux, if_pos h10]
      simp only [List.length_singleton]
      constructor
      · simpa using h1
      · simpa using h10
    · rw [natCharsAux, if_neg h10]
      have hdiv : n / 10 < f := by omega
      have hdiv1 : 1 ≤ n / 10 := by omega
      obtain ⟨hlo, hhi⟩ := ih (n / 10) hdiv hdiv1
      have hne := (natCharsAux_spec f (n / 10) hdiv).2.2
      have hlen1 : 1 ≤ (natCharsAux f (n / 10)).length :=
        List.length_pos.mpr hne
      rw [List.length_append, List.length_singleton]
      set L := (natCharsAux f (n / 10)).length with hL
      constructor
      · have heq : L + 1 - 1 = (L - 1) + 1 := by omega
        rw [heq, pow_succ]
        have h2 : 10 ^ (L - 1) * 10 ≤ (n / 10) * 10 := Nat.mul_le_mul_right 10 hlo
        have h3 : n / 10 * 10 ≤ n := Nat.div_mul_le_self n 10
        omega
      · have h2 : n < (n / 10 + 1) * 10 := by
          have hdm := Nat.div_add_mod n 10
          have hm := Nat.mod_lt n (by omega : 0 < 10)
          omega
        have h3 : (n / 10 + 1) * 10 ≤ 10 ^ L * 10 := by
          have : n / 10 + 1 ≤ 10 ^ L := hhi
          exact Nat.mul_le_mul_right 10 this
        rw [pow_succ]
        omega

theorem natChars_len_bounds (n : ℕ) (h1 : 1 ≤ n) :
    10 ^ ((natChars n).length - 1) ≤ n ∧ n < 10 ^ (natChars n).length :=
  natCharsAux_len_bounds (n + 1) n (by omega) h1

theorem natChars_length_six (m : ℕ) (hlo : 10 ^ 5 ≤ m) (hhi : m < 10 ^ 6) :
    (natChars m).length = 6 := by
  obtain ⟨hl, hh⟩ := natChars_len_bounds m (by omega)
  set L := (natChars m).length with hL
  have hne := natChars_ne_nil m
  have hlen1 : 1 ≤ L := List.length_pos.mpr hne
  by_contra hne6
  rcases lt_or_gt_of_ne (fun h => hne6 h) with h6 | h6
  · have : m < 10 ^ 5 := lt_of_lt_of_le hh (Nat.pow_le_pow_right (by omega) (by omega))
    omega
  · have : 10 ^ 6 ≤ 10 ^ (L - 1) := Nat.pow_le_pow_right (by omega) (by omega)
    omega

theorem stripZeros_subset (l : List Char) : ∀ c ∈ stripZeros l, c ∈ l := by
  intro c hc
  rw [stripZeros, List.mem_reverse] at hc
  exact List.mem_reverse.mp ((List.dropWhile_sublist _).subset hc)

theorem stripZeros_nil : stripZeros [] = [] := rfl

theorem stripZeros_append_zero (l : List Char) :
    stripZeros (l ++ ['0']) = stripZeros l := by
  rw [stripZeros, stripZeros, List.reverse_append]
  rfl

theorem stripZeros_append_nonzero (l : List Char) (c : Char) (hc : ¬(c = '0')) :
    stripZeros (l ++ [c]) = l ++ [c] := by
  rw [stripZeros, List.reverse_append]
  simp only [List.reverse_cons, List.reverse_nil, List.nil_append, List.singleton_append,
    List.dropWhile_cons]
  rw [if_neg (by simpa using hc)]
  simp

theorem stripZeros_val (l : List Char) :
    (digsVal (stripZeros l) : ℚ) / (10 : ℚ) ^ (stripZeros l).length =
      (digsVal l : ℚ) / (10 : ℚ) ^ l.length := by
  induction l using List.reverseRecOn with
  | nil => rfl
  | append_singleton l c ih =>
    by_cases hc : c = '0'
    · subst hc
      rw [stripZeros_append_zero, ih, digsVal_append]
      have h0 : digsVal ['0'] = 0 := rfl
      rw [h0, List.length_append, List.length_singleton, pow_one]
      push_cast
      rw [pow_succ]
      have h10 : ((10 : ℚ) ^ l.length) ≠ 0 := by positivity
      field_simp
      ring
    · rw [stripZeros_append_nonzero l c hc]

theorem digsVal_replicate_zero (k : ℕ) : digsVal (List.replicate k '0') = 0 := by
  induction k with
  | zero => rfl
  | succ k ih =>
    rw [List.replicate_succ, digsVal_cons, ih]
    simp [digVal]

theorem stripZeros_digsVal_eq (l : List Char) :
    (digsVal (stripZeros l) : ℚ) * (10 : ℚ) ^ (l.length - (stripZeros l).length) =
      (digsVal l : ℚ) := by
  have hlen : (stripZeros l).length ≤ l.length := by
    rw [stripZeros]
    calc (l.reverse.dropWhile (· = '0')).reverse.length
        = (l.reverse.dropWhile (· = '0')).length := List.length_reverse _
      _ ≤ l.reverse.length := (List.dropWhile_sublist _).length_le
      _ = l.length := List.length_reverse _
  have h := stripZeros_val l
  have h10 : ((10 : ℚ) ^ (stripZeros l).length) ≠ 0 := by positivity
  have h10' : ((10 : ℚ) ^ l.length) ≠ 0 := by positivity
  field_simp at h
  have key : (digsVal (stripZeros l) : ℚ) * (10 : ℚ) ^ (l.length - (stripZeros l).length) *
      (10 : ℚ) ^ (stripZeros l).length = (digsVal l : ℚ) * (10 : ℚ) ^ (stripZeros l).length := by
    rw [mul_assoc, ← pow_add,
      show l.length - (stripZeros l).length + (stripZeros l).length = l.length from by omega, h]
  exact mul_right_cancel₀ h10 key

theorem decExpAux_of_ge_one (f : ℕ) (q : ℚ) (h : 1 ≤ q) : decExpAux f q = 0 := by
  cases f with
  | zero => rfl
  | succ f => rw [decExpAux, if_pos h]

theorem decExpAux_spec :
    ∀ (f : ℕ) (q : ℚ), 0 < q → q < 1 → 1 ≤ q * 10 ^ f →
      1 ≤ q * 10 ^ decExpAux f q ∧ q * 10 ^ decExpAux f q < 10 := by
  intro f
  induction f with
  | zero =>
    intro q hq hq1 hf
    simp only [pow_zero, mul_one] at hf
    linarith
  | succ f ih =>
    intro q hq hq1 hf
    rw [decExpAux, if_neg (not_le.mpr hq1)]
    by_cases h10 : q * 10 < 1
    · obtain ⟨h1, h2⟩ := ih (q * 10) (by linarith) h10 (by
        rw [mul_assoc, ← pow_succ']
        exact hf)
      constructor
      · rw [pow_succ']
        calc (1 : ℚ) ≤ q * 10 * 10 ^ decExpAux f (q * 10) := h1
          _ = q * (10 * 10 ^ decExpAux f (q * 10)) := by ring
      · rw [pow_succ']
        calc q * (10 * 10 ^ decExpAux f (q * 10))
            = q * 10 * 10 ^ decExpAux f (q * 10) := by ring
          _ < 10 := h2
    · have h1 : (1 : ℚ) ≤ q * 10 := not_lt.mp h10
      rw [decExpAux_of_ge_one f (q * 10) h1]
      constructor
      · simpa using h1
      · have : q * 10 < 10 := by linarith
        simpa using this

theorem decExp_spec (q : ℚ) (hq : 0 < q) :
    (10 : ℚ) ^ decExp q ≤ q ∧ q < (10 : ℚ) ^ (decExp q + 1) := by
  rw [decExp]
  by_cases h1 : 1 ≤ q
  · rw [if_pos h1]
    set n := ⌊q⌋₊ with hn
    have hn1 : 1 ≤ n := Nat.le_floor (by exact_mod_cast h1)
    obtain ⟨hlo, hhi⟩ := natChars_len_bounds n hn1
    set L := (natChars n).length with hL
    have hL1 : 1 ≤ L := List.length_pos.mpr (natChars_ne_nil n)
    have hfl : (n : ℚ) ≤ q := Nat.floor_le hq.le
    have hfu : q < (n : ℚ) + 1 := Nat.lt_floor_add_one q
    constructor
    · have hz : ((L : ℤ) - 1) = ((L - 1 : ℕ) : ℤ) := by omega
      rw [hz, zpow_natCast]
      calc ((10 : ℚ) ^ (L - 1 : ℕ)) = ((10 ^ (L - 1 : ℕ) : ℕ) : ℚ) := by push_cast; ring
        _ ≤ (n : ℚ) := by exact_mod_cast hlo
        _ ≤ q := hfl
    · have hz : ((L : ℤ) - 1 + 1) = ((L : ℕ) : ℤ) := by omega
      rw [hz, zpow_natCast]
      calc q < (n : ℚ) + 1 := hfu
        _ ≤ ((10 ^ L : ℕ) : ℚ) := by exact_mod_cast hhi
        _ = (10 : ℚ) ^ L := by push_cast; ring
  · rw [if_neg h1]
    have hq1 : q < 1 := not_le.mp h1
    set F := (natChars q.den).length + 1 with hF
    have hden1 : 1 ≤ q.den := q.den_pos
    obtain ⟨_, hdhi⟩ := natChars_len_bounds q.den hden1
    have hdenF : (q.den : ℚ) ≤ (10 : ℚ) ^ F := by
      have h2 : q.den < 10 ^ F := by
        calc q.den < 10 ^ (natChars q.den).length := hdhi
          _ ≤ 10 ^ F := Nat.pow_le_pow_right (by omega) (by omega)
      calc (q.den : ℚ) ≤ ((10 ^ F : ℕ) : ℚ) := by exact_mod_cast h2.le
        _ = (10 : ℚ) ^ F := by push_cast; ring
    have hqden : 1 ≤ q * q.den := by
      have hnum : 1 ≤ q.num := Rat.num_pos.mpr hq
      have hden0 : (q.den : ℚ) ≠ 0 := by
        exact_mod_cast Nat.pos_iff_ne_zero.mp q.den_pos
      have hmul : q * q.den = q.num := by
        calc q * q.den = (q.num / q.den) * q.den := by rw [Rat.num_div_den]
          _ = q.num := div_mul_cancel₀ _ hden0
      rw [hmul]
      exact_mod_cast hnum
    have hpre : 1 ≤ q * 10 ^ F := by
      calc (1 : ℚ) ≤ q * q.den := hqden
        _ ≤ q * 10 ^ F := by
          apply mul_le_mul_of_nonneg_left hdenF hq.le
    obtain ⟨hk1, hk2⟩ := decExpAux_spec F q hq hq1 hpre
    set k := decExpAux F q with hk
    have hpow : ((10 : ℚ) ^ k) ≠ 0 := by positivity
    constructor
    · rw [zpow_neg, zpow_natCast]
      rw [inv_le_iff_one_le_mul₀ (by positivity)]
      linarith [hk1]
    · have hz : (-(k : ℤ) + 1) = ((1 : ℤ) - (k : ℤ)) := by ring
      rw [hz]
      have h10 : ((10 : ℚ) ^ ((1 : ℤ) - (k : ℤ))) = 10 / (10 : ℚ) ^ k := by
        rw [zpow_sub₀ (by norm_num : (10 : ℚ) ≠ 0), zpow_one, zpow_natCast]
      rw [h10, lt_div_iff₀ (by positivity)]
      linarith [hk2]

theorem gExact_mantissa (v : ℚ) (hv : v ≠ 0) (hg : gExact v) :
    ∃ m : ℕ, ((m : ℚ) = |v| * (10 : ℚ) ^ ((5 : ℤ) - decExp |v|)) ∧
      10 ^ 5 ≤ m ∧ m < 10 ^ 6 ∧
      (|v| * (10 : ℚ) ^ ((5 : ℤ) - decExp |v|)).num.toNat = m := by
  have habs : (0 : ℚ) < |v| := abs_pos.mpr hv
  obtain ⟨hlo, hhi⟩ := decExp_spec |v| habs
  set e := decExp |v| with he
  have hzpos : (0 : ℚ) < (10 : ℚ) ^ ((5 : ℤ) - e) := by positivity
  have hMlo : (10 : ℚ) ^ (5 : ℤ) ≤ |v| * (10 : ℚ) ^ ((5 : ℤ) - e) := by
    calc (10 : ℚ) ^ (5 : ℤ) = (10 : ℚ) ^ e * (10 : ℚ) ^ ((5 : ℤ) - e) := by
          rw [← zpow_add₀ (by norm_num : (10 : ℚ) ≠ 0)]
          congr 1
          ring
      _ ≤ |v| * (10 : ℚ) ^ ((5 : ℤ) - e) := by
          apply mul_le_mul_of_nonneg_right hlo hzpos.le
  have hMhi : |v| * (10 : ℚ) ^ ((5 : ℤ) - e) < (10 : ℚ) ^ (6 : ℤ) := by
    calc |v| * (10 : ℚ) ^ ((5 : ℤ) - e) < (10 : ℚ) ^ (e + 1) * (10 : ℚ) ^ ((5 : ℤ) - e) := by
          apply mul_lt_mul_of_pos_right hhi hzpos
      _ = (10 : ℚ) ^ (6 : ℤ) := by
          rw [← zpow_add₀ (by norm_num : (10 : ℚ) ≠ 0)]
          congr 1
          ring
  have hg1 := hg.1
  rw [sigRound6, if_neg hv, ← he] at hg1
  have habs_eq := congrArg abs hg1
  rw [abs_mul, abs_mul] at habs_eq
  have hsgn : |(if v < 0 then (-1 : ℚ) else 1)| = 1 := by
    split <;> norm_num
  have hzabs : |(10 : ℚ) ^ (e - 5)| = (10 : ℚ) ^ (e - 5) := abs_of_pos (by positivity)
  rw [hsgn, hzabs, one_mul] at habs_eq
  set X : ℚ := (roundHalfEven (|v| * (10 : ℚ) ^ ((5 : ℤ) - e)) : ℚ) with hX
  have hXM : |X| = |v| * (10 : ℚ) ^ ((5 : ℤ) - e) := by
    have h1 : |X| * (10 : ℚ) ^ (e - 5) * (10 : ℚ) ^ ((5 : ℤ) - e) =
        |v| * (10 : ℚ) ^ ((5 : ℤ) - e) := by
      rw [habs_eq]
    rw [mul_assoc, ← zpow_add₀ (by norm_num : (10 : ℚ) ≠ 0)] at h1
    simpa using h1
  refine ⟨(roundHalfEven (|v| * (10 : ℚ) ^ ((5 : ℤ) - e))).natAbs, ?_, ?_, ?_, ?_⟩
  · rw [Int.cast_natAbs, Int.cast_abs, ← hX, hXM]
  · have : ((10 ^ 5 : ℕ) : ℚ) ≤ (((roundHalfEven (|v| * (10 : ℚ) ^ ((5 : ℤ) - e))).natAbs : ℕ) : ℚ) := by
      rw [Int.cast_natAbs, Int.cast_abs, ← hX, hXM]
      calc ((10 ^ 5 : ℕ) : ℚ) = (10 : ℚ) ^ (5 : ℤ) := by push_cast; norm_num
        _ ≤ _ := hMlo
    exact_mod_cast this
  · have : (((roundHalfEven (|v| * (10 : ℚ) ^ ((5 : ℤ) - e))).natAbs : ℕ) : ℚ) < ((10 ^ 6 : ℕ) : ℚ) := by
      rw [Int.cast_natAbs, Int.cast_abs, ← hX, hXM]
      calc |v| * (10 : ℚ) ^ ((5 : ℤ) - e) < (10 : ℚ) ^ (6 : ℤ) := hMhi
        _ = ((10 ^ 6 : ℕ) : ℚ) := by push_cast; norm_num
    exact_mod_cast this
  · have hM : |v| * (10 : ℚ) ^ ((5 : ℤ) - e) =
        (((roundHalfEven (|v| * (10 : ℚ) ^ ((5 : ℤ) - e))).natAbs : ℕ) : ℚ) := by
      rw [Int.cast_natAbs, Int.cast_abs, ← hX, hXM]
    conv_lhs => rw [hM]
    rw [Rat.num_natCast]
    exact Int.toNat_natCast _

theorem isDigit_not_space (c : Char) (h : c.isDigit = true) : isSpaceCh c = false := by
  by_contra hs
  have hs' : isSpaceCh c = true := by
    revert hs
    cases isSpaceCh c <;> simp
  rw [isSpaceCh] at hs'
  simp only [Bool.or_eq_true, decide_eq_true_eq] at hs'
  rcases hs' with ((((rfl | rfl) | rfl) | rfl) | rfl) | rfl <;> simp [Char.isDigit] at h

theorem isDigit_ne_dash (c : Char) (h : c.isDigit = true) : ¬(c = '-') := by
  rintro rfl
  simp [Char.isDigit] at h

theorem isDigit_ne_plus (c : Char) (h : c.isDigit = true) : ¬(c = '+') := by
  rintro rfl
  simp [Char.isDigit] at h

theorem isDigit_ne_dot (c : Char) (h : c.isDigit = true) : ¬(c = '.') := by
  rintro rfl
  simp [Char.isDigit] at h

theorem signedNum_head_digit (c : Char) (t : List Char) (hd : c.isDigit = true) :
    signedNum (c :: t) = numBody (c :: t) := by
  rw [signedNum.eq_def]
  split
  · next heq =>
    exact absurd (List.head_eq_of_cons_eq heq) (isDigit_ne_dash c hd)
  · next heq =>
    exact absurd (List.head_eq_of_cons_eq heq) (isDigit_ne_plus c hd)
  · rfl

theorem stripZeros_length_le (l : List Char) : (stripZeros l).length ≤ l.length := by
  rw [stripZeros]
  calc ((l.reverse.dropWhile (· = '0')).reverse).length
      = (l.reverse.dropWhile (· = '0')).length := List.length_reverse _
    _ ≤ l.reverse.length := (List.dropWhile_sublist _).length_le
    _ = l.length := List.length_reverse _

/-- Under `gExact`, the `%g` rendering of `v` consists solely of digits, `'-'`
and `'.'`, is nonempty, and parses back (as `[-+]?(?:\d*\.\d+|\d+)`) to exactly
`v` whenever the following characters cannot extend the number. -/
theorem fmtG_parse (v : ℚ) (hg : gExact v) :
    (∀ c ∈ fmtG v, c.isDigit = true ∨ c = '-' ∨ c = '.') ∧ fmtG v ≠ [] ∧
    ∀ rest, (∀ c, rest.head? = some c → c.isDigit = false ∧ ¬(c = '.')) →
      signedNum (fmtG v ++ rest) = some (v, rest) := by
  by_cases hv : v = 0
  · subst hv
    have h0 : fmtG 0 = ['0'] := rfl
    refine ⟨?_, ?_, ?_⟩
    · intro c hc
      rw [h0] at hc
      simp at hc
      subst hc
      exact Or.inl (by decide)
    · rw [h0]
      simp
    · intro rest hrest
      rw [h0]
      have hnb : numBody (['0'] ++ rest) = some ((digsVal ['0'] : ℚ), rest) :=
        numBody_int ['0'] rest (by simp) (by intro c hc; simp at hc; subst hc; decide) hrest
      rw [List.singleton_append] at hnb ⊢
      rw [signedNum_head_digit '0' rest (by decide), hnb]
      norm_num [show digsVal ['0'] = 0 from by decide]
  · have hsig : sigRound6 v = v := hg.1
    have hrange' : -4 ≤ decExp |v| ∧ decExp |v| ≤ 5 := hg.2.resolve_left hv
    obtain ⟨m, hmQ, hmlo, hmhi, hmdef⟩ := gExact_mantissa v hv hg
    set e := decExp |v| with he
    set ds := natChars m with hds
    have hlen6 : ds.length = 6 := by
      rw [hds]
      exact natChars_length_six m hmlo hmhi
    have hdsd : ∀ c ∈ ds, c.isDigit = true := by
      rw [hds]
      exact natChars_digits m
    have hdsv : digsVal ds = m := by
      rw [hds]
      exact digsVal_natChars m
    have hmain : ∃ bc bt, fmtG v = (if v < 0 then ['-'] else []) ++ (bc :: bt) ∧
        (∀ c ∈ bc :: bt, c.isDigit = true ∨ c = '.') ∧ bc.isDigit = true ∧
        ∀ rest, (∀ c, rest.head? = some c → c.isDigit = false ∧ ¬(c = '.')) →
          numBody ((bc :: bt) ++ rest) = some (|v|, rest) := by
      by_cases h0 : 0 ≤ e
      · -- fixed notation, with an integer part of `e.toNat + 1` digits
        set E := e.toNat with hE
        have heE : (E : ℤ) = e := by
          rw [hE]
          exact Int.toNat_of_nonneg h0
        have hE5 : E ≤ 5 := by omega
        set ip := ds.take (E + 1) with hip
        set dsf := ds.drop (E + 1) with hdsf
        set fp := stripZeros dsf with hfp
        have hiplen : ip.length = E + 1 := by
          rw [hip, List.length_take, hlen6]
          omega
        have hdsflen : dsf.length = 5 - E := by
          rw [hdsf, List.length_drop, hlen6]
          omega
        have hipne : ip ≠ [] := by
          intro hnil
          rw [hnil] at hiplen
          simp only [List.length_nil] at hiplen
          omega
        have hsplitds : ip ++ dsf = ds := by
          rw [hip, hdsf]
          exact List.take_append_drop (E + 1) ds
        have hipd : ∀ c ∈ ip, c.isDigit = true := by
          intro c hc
          exact hdsd c (by rw [← hsplitds]; exact List.mem_append_left _ hc)
        have hdsfd : ∀ c ∈ dsf, c.isDigit = true := by
          intro c hc
          exact hdsd c (by rw [← hsplitds]; exact List.mem_append_right _ hc)
        have hfpd : ∀ c ∈ fp, c.isDigit = true := by
          intro c hc
          rw [hfp] at hc
          exact hdsfd c (stripZeros_subset dsf c hc)
        have hmn : digsVal ip * 10 ^ dsf.length + digsVal dsf = m := by
          rw [← digsVal_append, hsplitds]
          exact hdsv
        have h5e : (10 : ℚ) ^ ((5 : ℤ) - e) = (10 : ℚ) ^ dsf.length := by
          have hcast : ((dsf.length : ℕ) : ℤ) = (5 : ℤ) - e := by
            rw [hdsflen]
            omega
          rw [← hcast, zpow_natCast]
        have hvq : (m : ℚ) = |v| * (10 : ℚ) ^ dsf.length := by
          rw [← h5e]
          exact hmQ
        have h10 : ((10 : ℚ) ^ dsf.length) ≠ 0 := by positivity
        have hvalsum : (digsVal ip : ℚ) + (digsVal dsf : ℚ) / (10 : ℚ) ^ dsf.length = |v| := by
          have hcast : ((digsVal ip * 10 ^ dsf.length + digsVal dsf : ℕ) : ℚ) = (m : ℚ) := by
            exact_mod_cast hmn
          rw [hvq] at hcast
          push_cast at hcast
          field_simp
          linarith [hcast]
        have hfmt : fmtG v = (if v < 0 then ['-'] else []) ++
            (ip ++ (if fp.isEmpty then [] else '.' :: fp)) := by
          simp only [fmtG, if_neg hv, hsig]
          rw [← he, hmdef, ← hds]
          rw [if_neg (show ¬(e < -4 ∨ 5 < e) by omega)]
          rw [if_pos h0]
        obtain ⟨bc, ip', hipcons⟩ := List.exists_cons_of_ne_nil hipne
        refine ⟨bc, ip' ++ (if fp.isEmpty then [] else '.' :: fp), ?_, ?_, ?_, ?_⟩
        · rw [hfmt, hipcons, List.cons_append]
        · intro c hc
          rcases List.mem_cons.mp hc with rfl | hc'
          · exact Or.inl (hipd c (by rw [hipcons]; exact List.mem_cons_self c ip'))
          · rcases List.mem_append.mp hc' with hci | hcx
            · exact Or.inl (hipd c (by rw [hipcons]; exact List.mem_cons_of_mem bc hci))
            · by_cases hfpe : fp.isEmpty
              · rw [if_pos hfpe] at hcx
                simp at hcx
              · rw [if_neg hfpe] at hcx
                rcases List.mem_cons.mp hcx with rfl | hcf
                · exact Or.inr rfl
                · exact Or.inl (hfpd c hcf)
        · exact hipd bc (by rw [hipcons]; exact List.mem_cons_self bc ip')
        · intro rest hrest
          rw [← List.cons_append, ← hipcons]
          by_cases hfpe : fp.isEmpty
          · rw [if_pos hfpe]
            have hfpnil : fp = [] := List.isEmpty_iff.mp hfpe
            have hdsf0 : (digsVal dsf : ℚ) = 0 := by
              have hz := stripZeros_digsVal_eq dsf
              rw [← hfp, hfpnil] at hz
              have h0' : digsVal ([] : List Char) = 0 := rfl
              rw [h0'] at hz
              simpa using hz.symm
            have hipval : (digsVal ip : ℚ) = |v| := by
              rw [← hvalsum, hdsf0]
              simp
            rw [List.append_nil]
            rw [numBody_int ip rest hipne hipd hrest, hipval]
          · rw [if_neg hfpe]
            have hfpne : fp ≠ [] := by
              intro hnil
              rw [hnil] at hfpe
              exact hfpe rfl
            have hsv : (digsVal fp : ℚ) / (10 : ℚ) ^ fp.length =
                (digsVal dsf : ℚ) / (10 : ℚ) ^ dsf.length := by
              have h' := stripZeros_val dsf
              rw [← hfp] at h'
              exact h'
            have hfullval : (digsVal ip : ℚ) + (digsVal fp : ℚ) / (10 : ℚ) ^ fp.length = |v| := by
              rw [hsv]
              exact hvalsum
            rw [numBody_frac ip fp rest hipd hfpne hfpd (fun c hc => (hrest c hc).1)]
            rw [hfullval]
      · -- negative exponent: `0.00…` form
        have hneg : e ≤ -1 := by omega
        set k := e.natAbs - 1 with hk
        set sds := stripZeros ds with hsds
        have hsdsd : ∀ c ∈ sds, c.isDigit = true := by
          intro c hc
          rw [hsds] at hc
          exact hdsd c (stripZeros_subset ds c hc)
        have hsdsne : sds ≠ [] := by
          intro hnil
          have hz := stripZeros_digsVal_eq ds
          rw [← hsds, hnil] at hz
          have h0' : digsVal ([] : List Char) = 0 := rfl
          rw [h0', hdsv] at hz
          have hm0 : (m : ℚ) = 0 := by simpa using hz.symm
          have hm0' : m = 0 := by exact_mod_cast hm0
          omega
        have hS6 : sds.length ≤ 6 := by
          rw [← hlen6, hsds]
          exact stripZeros_length_le ds
        have hd2ne : List.replicate k '0' ++ sds ≠ [] := by simp [hsdsne]
        have hd2d : ∀ c ∈ List.replicate k '0' ++ sds, c.isDigit = true := by
          intro c hc
          rcases List.mem_append.mp hc with hc0 | hcs
          · rw [List.eq_of_mem_replicate hc0]
            decide
          · exact hsdsd c hcs
        have hd2v : digsVal (List.replicate k '0' ++ sds) = digsVal sds := by
          rw [digsVal_append, digsVal_replicate_zero]
          simp
        have hd2l : (List.replicate k '0' ++ sds).length = k + sds.length := by
          simp
        have hzq : (digsVal sds : ℚ) * (10 : ℚ) ^ (6 - sds.length) = (m : ℚ) := by
          have hz := stripZeros_digsVal_eq ds
          rw [← hsds, hlen6, hdsv] at hz
          exact hz
        have h5e' : (10 : ℚ) ^ ((5 : ℤ) - e) = (10 : ℚ) ^ ((6 + k : ℕ)) := by
          have hcast : (((6 + k : ℕ)) : ℤ) = (5 : ℤ) - e := by
            push_cast
            omega
          rw [← hcast, zpow_natCast]
        have hvq' : (m : ℚ) = |v| * (10 : ℚ) ^ ((6 + k : ℕ)) := by
          rw [← h5e']
          exact hmQ
        have hval' : (digsVal sds : ℚ) / (10 : ℚ) ^ (k + sds.length) = |v| := by
          rw [div_eq_iff (by positivity)]
          have hmul : ((10 : ℚ) ^ (6 - sds.length)) ≠ 0 := by positivity
          apply mul_right_cancel₀ hmul
          calc (digsVal sds : ℚ) * (10 : ℚ) ^ (6 - sds.length) = (m : ℚ) := hzq
            _ = |v| * (10 : ℚ) ^ ((6 + k : ℕ)) := hvq'
            _ = |v| * (10 : ℚ) ^ (k + sds.length) * (10 : ℚ) ^ (6 - sds.length) := by
                rw [mul_assoc, ← pow_add,
                  show k + sds.length + (6 - sds.length) = 6 + k from by omega]
        have hfmt : fmtG v = (if v < 0 then ['-'] else []) ++
            ('0' :: '.' :: (List.replicate k '0' ++ sds)) := by
          simp only [fmtG, if_neg hv, hsig]
          rw [← he, hmdef, ← hds]
          rw [if_neg (show ¬(e < -4 ∨ 5 < e) by omega), if_neg h0]
        refine ⟨'0', '.' :: (List.replicate k '0' ++ sds), hfmt, ?_, by decide, ?_⟩
        · intro c hc
          rcases List.mem_cons.mp hc with rfl | hc'
          · exact Or.inl (by decide)
          · rcases List.mem_cons.mp hc' with rfl | hc''
            · exact Or.inr rfl
            · exact Or.inl (hd2d c hc'')
        · intro rest hrest
          rw [show ('0' :: '.' :: (List.replicate k '0' ++ sds)) ++ rest =
              (['0'] ++ '.' :: (List.replicate k '0' ++ sds)) ++ rest from by simp]
          rw [numBody_frac ['0'] (List.replicate k '0' ++ sds) rest
              (by intro c hc; simp at hc; subst hc; decide) hd2ne hd2d
              (fun c hc => (hrest c hc).1)]
          rw [hd2v, hd2l]
          have h00 : digsVal ['0'] = 0 := by decide
          rw [h00]
          push_cast
          rw [zero_add, hval']
    obtain ⟨bc, bt, hb, hbinv, hbcd, hbparse⟩ := hmain
    refine ⟨?_, ?_, ?_⟩
    · intro c hc
      rw [hb] at hc
      rcases List.mem_append.mp hc with hcs | hcb
      · by_cases hvn : v < 0
        · rw [if_pos hvn] at hcs
          simp at hcs
          subst hcs
          exact Or.inr (Or.inl rfl)
        · rw [if_neg hvn] at hcs
          simp at hcs
      · rcases hbinv c hcb with hd | hdot
        · exact Or.inl hd
        · exact Or.inr (Or.inr hdot)
    · rw [hb]
      by_cases hvn : v < 0
      · rw [if_pos hvn]
        simp
      · rw [if_neg hvn]
        simp
    · intro rest hrest
      rw [hb]
      by_cases hvn : v < 0
      · rw [if_pos hvn]
        have hstep : (['-'] ++ bc :: bt) ++ rest = '-' :: ((bc :: bt) ++ rest) := by simp
        rw [hstep]
        have hsn : signedNum ('-' :: ((bc :: bt) ++ rest)) =
            (numBody ((bc :: bt) ++ rest)).map (fun p => (-p.1, p.2)) := rfl
        rw [hsn, hbparse rest hrest]
        simp [abs_of_neg hvn]
      · rw [if_neg hvn]
        simp only [List.nil_append]
        have hstep : (bc :: bt) ++ rest = bc :: (bt ++ rest) := rfl
        rw [hstep, signedNum_head_digit bc (bt ++ rest) hbcd, ← hstep, hbparse rest hrest]
        have hvpos : 0 < v := lt_of_le_of_ne (le_of_not_lt hvn) (Ne.symm hv)
        rw [abs_of_pos hvpos]

theorem digit_ne_of (c d : Char) (hc : c.isDigit = true) (hd : d.isDigit = false) :
    ¬(c = d) := by
  rintro rfl
  rw [hc] at hd
  cases hd

theorem cls66_not_num (c : Char) (h : c.isDigit = true ∨ c = '-' ∨ c = '.') :
    cls66 c = false := by
  rcases h with hd | rfl | rfl
  · simp [cls66, digit_ne_of c 'R' hd (by decide), digit_ne_of c 'Z' hd (by decide),
      digit_ne_of c 'S' hd (by decide), digit_ne_of c 'I' hd (by decide),
      digit_ne_of c 'J' hd (by decide), digit_ne_of c 'K' hd (by decide),
      digit_ne_of c 'T' hd (by decide)]
  · decide
  · decide

theorem cls83_not_num (c : Char) (h : c.isDigit = true ∨ c = '-' ∨ c = '.') :
    cls83 c = false := by
  rcases h with hd | rfl | rfl
  · simp [cls83, digit_ne_of c 'R' hd (by decide), digit_ne_of c 'Z' hd (by decide),
      digit_ne_of c 'Q' hd (by decide), digit_ne_of c 'F' hd (by decide),
      digit_ne_of c 'X' hd (by decide), digit_ne_of c 'Y' hd (by decide),
      digit_ne_of c 'I' hd (by decide), digit_ne_of c 'J' hd (by decide),
      digit_ne_of c 'K' hd (by decide)]
  · decide
  · decide

theorem findToks_cons_notcls (cls : Char → Bool) (c : Char) (cs : List Char)
    (h : cls c = false) : findToks cls (c :: cs) = findToks cls cs := by
  simp [findToks, h]

theorem findToks_append_notcls (cls : Char → Bool) (l rest : List Char)
    (h : ∀ c ∈ l, cls c = false) : findToks cls (l ++ rest) = findToks cls rest := by
  induction l with
  | nil => rfl
  | cons c t ih =>
    rw [List.cons_append, findToks_cons_notcls cls c _ (h c (List.mem_cons_self c t))]
    exact ih (fun x hx => h x (List.mem_cons_of_mem c hx))

/-- Scanning one rendered `<letter><fmt(value)>` field: the scanner emits the
token and the number's characters contribute nothing further. -/
theorem findToks_field (cls : Char → Bool)
    (hnum : ∀ c, c.isDigit = true ∨ c = '-' ∨ c = '.' → cls c = false)
    (c : Char) (hc : cls c = true) (v : ℚ) (hv : gExact v) (sep : List Char)
    (hsep : ∀ s, sep.head? = some s → s.isDigit = false ∧ ¬(s = '.')) :
    findToks cls ((c :: fmtG v) ++ sep) = (c, v) :: findToks cls sep := by
  obtain ⟨hinv, hne, hparse⟩ := fmtG_parse v hv
  obtain ⟨hc0, ht0, hcons⟩ := List.exists_cons_of_ne_nil hne
  have hnospace : isSpaceCh hc0 = false := by
    rcases hinv hc0 (by rw [hcons]; exact List.mem_cons_self hc0 ht0) with hd | rfl | rfl
    · exact isDigit_not_space hc0 hd
    · decide
    · decide
  have hdw : (fmtG v ++ sep).dropWhile isSpaceCh = fmtG v ++ sep := by
    rw [hcons, List.cons_append]
    simp [List.dropWhile_cons, hnospace]
  rw [List.cons_append]
  rw [show findToks cls (c :: (fmtG v ++ sep)) =
      if cls c then
        match signedNum ((fmtG v ++ sep).dropWhile isSpaceCh) with
        | some p => (c, p.1) :: findToks cls (fmtG v ++ sep)
        | none => findToks cls (fmtG v ++ sep)
      else findToks cls (fmtG v ++ sep) from rfl]
  rw [hc, hdw, hparse sep hsep]
  simp only [if_true]
  rw [findToks_append_notcls cls (fmtG v) sep (fun x hx => hnum x (hinv x hx))]

/-- Scanning a space-joined list of rendered fields recovers exactly the token
list (terminated by the trailing newline). -/
theorem findToks_joinSp (cls : Char → Bool)
    (hnum : ∀ c, c.isDigit = true ∨ c = '-' ∨ c = '.' → cls c = false)
    (hsp : cls ' ' = false) (hnl : cls '\n' = false) :
    ∀ toks : List (Char × ℚ), (∀ cv ∈ toks, cls cv.1 = true ∧ gExact cv.2) →
      findToks cls (joinSp (toks.map (fun cv => fmt_part cv.1 cv.2)) ++ ['\n']) = toks := by
  intro toks
  induction toks with
  | nil =>
    intro _
    rw [List.map_nil, show joinSp [] = [] from rfl, List.nil_append,
      findToks_cons_notcls cls '\n' [] hnl]
    rfl
  | cons cv tl ih =>
    intro htoks
    obtain ⟨hcv1, hcv2⟩ := htoks cv (List.mem_cons_self cv tl)
    cases tl with
    | nil =>
      rw [List.map_cons, List.map_nil, show joinSp [fmt_part cv.1 cv.2] = fmt_part cv.1 cv.2
        from rfl]
      rw [show fmt_part cv.1 cv.2 = cv.1 :: fmtG cv.2 from rfl]
      rw [findToks_field cls hnum cv.1 hcv1 cv.2 hcv2 ['\n']
        (by intro s hs; simp at hs; subst hs; exact ⟨by decide, by decide⟩)]
      rw [findToks_cons_notcls cls '\n' [] hnl]
      rfl
    | cons cv' tl' =>
      rw [List.map_cons]
      rw [show joinSp (fmt_part cv.1 cv.2 :: (cv' :: tl').map (fun cv => fmt_part cv.1 cv.2)) =
          fmt_part cv.1 cv.2 ++ ' ' ::
            joinSp ((cv' :: tl').map (fun cv => fmt_part cv.1 cv.2)) from rfl]
      rw [List.append_assoc, List.cons_append]
      rw [show fmt_part cv.1 cv.2 = cv.1 :: fmtG cv.2 from rfl]
      rw [findToks_field cls hnum cv.1 hcv1 cv.2 hcv2
        (' ' :: (joinSp ((cv' :: tl').map (fun cv => fmt_part cv.1 cv.2)) ++ ['\n']))
        (by intro s hs; simp at hs; subst hs; exact ⟨by decide, by decide⟩)]
      rw [findToks_cons_notcls cls ' ' _ hsp]
      rw [ih (fun x hx => htoks x (List.mem_cons_of_mem cv hx))]

/-- Scanning a rendered line: a class-letter-free head word, then the fields. -/
theorem findToks_render (cls : Char → Bool)
    (hnum : ∀ c, c.isDigit = true ∨ c = '-' ∨ c = '.' → cls c = false)
    (hsp : cls ' ' = false) (hnl : cls '\n' = false)
    (head : List Char) (hhead : ∀ c ∈ head, cls c = false)
    (toks : List (Char × ℚ)) (htoks : ∀ cv ∈ toks, cls cv.1 = true ∧ gExact cv.2) :
    findToks cls (joinSp (head :: toks.map (fun cv => fmt_part cv.1 cv.2)) ++ ['\n']) =
      toks := by
  cases htl : toks.map (fun cv => fmt_part cv.1 cv.2) with
  | nil =>
    have htoksnil : toks = [] := List.map_eq_nil_iff.mp htl
    subst htoksnil
    rw [show joinSp [head] = head from rfl,
      findToks_append_notcls cls head ['\n'] hhead,
      findToks_cons_notcls cls '\n' [] hnl]
    rfl
  | cons p ps =>
    rw [show joinSp (head :: p :: ps) = head ++ ' ' :: joinSp (p :: ps) from rfl,
      List.append_assoc, List.cons_append,
      findToks_append_notcls cls head _ hhead,
      findToks_cons_notcls cls ' ' _ hsp, ← htl]
    exact findToks_joinSp cls hnum hsp hnl toks htoks


theorem map_fmt_opt (c : Char) (o : Option ℚ) :
    (match o with | some v => [(c, v)] | none => ([] : List (Char × ℚ))).map
        (fun cv : Char × ℚ => fmt_part cv.1 cv.2) =
      (match o with | some v => [fmt_part c v] | none => []) := by
  cases o <;> rfl

theorem map_fmt_opt_if (c : Char) (o : Option ℚ) :
    (match o with
     | some v => if tol < |v| then [(c, v)] else []
     | none => ([] : List (Char × ℚ))).map (fun cv : Char × ℚ => fmt_part cv.1 cv.2) =
      (match o with
       | some v => if tol < |v| then [fmt_part c v] else []
       | none => []) := by
  cases o with
  | none => rfl
  | some v =>
    by_cases h : tol < |v| <;> simp [h]

/-- The `G66` parts list is the head word followed by the formatted emission
tokens. -/
theorem update_g66_parts_eq (st : G66Static) (dyn : List Ijk) :
    update_g66_parts st dyn =
      (String.toList "G66 P9131") ::
        (g66RewriteToks st dyn).map (fun cv : Char × ℚ => fmt_part cv.1 cv.2) := by
  have hmapdyn :
      ((dyn.map (fun g => if tol < |g.I| ∨ tol < |g.J| ∨ tol < |g.K| then
          [(('I' : Char), g.I), ('J', g.J), ('K', g.K)] else [])).flatten).map
        (fun cv : Char × ℚ => fmt_part cv.1 cv.2) =
      (dyn.map (fun g => if tol < |g.I| ∨ tol < |g.J| ∨ tol < |g.K| then
          [fmt_part 'I' g.I, fmt_part 'J' g.J, fmt_part 'K' g.K] else [])).flatten := by
    rw [List.map_flatten, List.map_map]
    refine congrArg List.flatten (List.map_congr_left ?_)
    intro g _
    by_cases h : tol < |g.I| ∨ tol < |g.J| ∨ tol < |g.K| <;> simp [h, Function.comp]
  rw [update_g66_parts, g66RewriteToks]
  congr 1
  simp only [List.map_append, map_fmt_opt, map_fmt_opt_if, hmapdyn]

/-- The `G83` parts list is the head word followed by the formatted emission
tokens. -/
theorem update_g83_parts_eq (xy : Option ℚ × Option ℚ) (st : G83Static) (use_ijk : Bool) :
    update_g83_parts xy st use_ijk =
      (String.toList "G83") ::
        (g83RewriteToks xy st use_ijk).map (fun cv : Char × ℚ => fmt_part cv.1 cv.2) := by
  rw [update_g83_parts, g83RewriteToks]
  congr 1
  cases use_ijk <;> simp [List.map_append, map_fmt_opt]

/-- Every token the `G66` rewrite emits is a class letter with a `%g`-exact value. -/
theorem g66RewriteToks_wf (st : G66Static) (dyn : List Ijk) (h : wf66 ⟨st, dyn⟩) :
    ∀ cv ∈ g66RewriteToks st dyn, cls66 cv.1 = true ∧ gExact cv.2 := by
  obtain ⟨hR, hZ, hS, hT, hD⟩ := h
  intro cv hcv
  rw [g66RewriteToks] at hcv
  rcases List.mem_append.mp hcv with h1 | hdyn
  · rcases List.mem_append.mp h1 with h2 | hT'
    · rcases List.mem_append.mp h2 with h3 | hS'
      · rcases List.mem_append.mp h3 with hR' | hZ'
        · rcases hRo : st.R with _ | v
          · rw [hRo] at hR'
            simp at hR'
          · rw [hRo] at hR'
            simp at hR'
            subst hR'
            exact ⟨rfl, hR v hRo⟩
        · rcases hZo : st.Z with _ | v
          · rw [hZo] at hZ'
            simp at hZ'
          · rw [hZo] at hZ'
            simp at hZ'
            subst hZ'
            exact ⟨rfl, hZ v hZo⟩
      · rcases hSo : st.S with _ | v
        · rw [hSo] at hS'
          simp at hS'
        · rw [hSo] at hS'
          have hS'' : cv ∈ (if tol < |v| then [(('S' : Char), v)] else []) := hS'
          by_cases ht : tol < |v|
          · rw [if_pos ht] at hS''
            simp at hS''
            subst hS''
            exact ⟨rfl, (hS v hSo).1⟩
          · rw [if_neg ht] at hS''
            simp at hS''
    · rcases hTo : st.T with _ | v
      · rw [hTo] at hT'
        simp at hT'
      · rw [hTo] at hT'
        have hT'' : cv ∈ (if tol < |v| then [(('T' : Char), v)] else []) := hT'
        by_cases ht : tol < |v|
        · rw [if_pos ht] at hT''
          simp at hT''
          subst hT''
          exact ⟨rfl, (hT v hTo).1⟩
        · rw [if_neg ht] at hT''
          simp at hT''
  · obtain ⟨l, hl, hcl⟩ := List.mem_flatten.mp hdyn
    obtain ⟨g, hg, hfg⟩ := List.mem_map.mp hl
    subst hfg
    by_cases hp : tol < |g.I| ∨ tol < |g.J| ∨ tol < |g.K|
    · rw [if_pos hp] at hcl
      obtain ⟨⟨hgI, hgJ, hgK⟩, _⟩ := hD g hg
      simp only [List.mem_cons, List.not_mem_nil, or_false] at hcl
      rcases hcl with rfl | rfl | rfl
      · exact ⟨rfl, hgI⟩
      · exact ⟨rfl, hgJ⟩
      · exact ⟨rfl, hgK⟩
    · rw [if_neg hp] at hcl
      simp at hcl

/-- Every token the `G83` rewrite emits is a class letter with a `%g`-exact value. -/
theorem g83RewriteToks_wf (r : G83Rec) (h : wf83 r) :
    ∀ cv ∈ g83RewriteToks r.original_xy r.static r.use_ijk_mode,
      cls83 cv.1 = true ∧ gExact cv.2 := by
  obtain ⟨hR, hZ, hF, hP, hX, hY, hXg, hYg, hRs, hZs, hdyn, hmode⟩ := h
  intro cv hcv
  rw [g83RewriteToks] at hcv
  rcases List.mem_append.mp hcv with h1 | hF'
  · rcases List.mem_append.mp h1 with h2 | hM
    · rcases List.mem_append.mp h2 with h3 | hR'
      · rcases List.mem_append.mp h3 with h4 | hZ'
        · rcases List.mem_append.mp h4 with hX' | hY'
          · rcases hXo : r.original_xy.1 with _ | v
            · rw [hXo] at hX'
              simp at hX'
            · rw [hXo] at hX'
              simp at hX'
              subst hX'
              exact ⟨rfl, hXg v (hX.trans hXo)⟩
          · rcases hYo : r.original_xy.2 with _ | v
            · rw [hYo] at hY'
              simp at hY'
            · rw [hYo] at hY'
              simp at hY'
              subst hY'
              exact ⟨rfl, hYg v (hY.trans hYo)⟩
        · rcases hZo : r.static.Z with _ | v
          · rw [hZo] at hZ'
            simp at hZ'
          · rw [hZo] at hZ'
            simp at hZ'
            subst hZ'
            exact ⟨rfl, hZ v hZo⟩
      · rcases hRo : r.static.R with _ | v
        · rw [hRo] at hR'
          simp at hR'
        · rw [hRo] at hR'
          simp at hR'
          subst hR'
          exact ⟨rfl, hR v hRo⟩
    · cases hu : r.use_ijk_mode with
      | true =>
        rw [hu] at hM
        rw [if_pos rfl] at hM
        rw [hu] at hmode
        simp only [if_true] at hmode
        obtain ⟨-, ⟨iv, hI, hIg, -⟩, ⟨jv, hJ, hJg⟩, ⟨kv, hK, hKg⟩⟩ := hmode
        rcases List.mem_append.mp hM with h5 | hK'
        · rcases List.mem_append.mp h5 with hI' | hJ'
          · rw [hI] at hI'
            simp at hI'
            subst hI'
            exact ⟨rfl, hIg⟩
          · rw [hJ] at hJ'
            simp at hJ'
            subst hJ'
            exact ⟨rfl, hJg⟩
        · rw [hK] at hK'
          simp at hK'
          subst hK'
          exact ⟨rfl, hKg⟩
      | false =>
        rw [hu] at hM
        rw [if_neg (by simp)] at hM
        rw [hu] at hmode
        simp only [Bool.false_eq_true, if_false] at hmode
        obtain ⟨-, -, -, ⟨qv, hQ, hQg, -⟩⟩ := hmode
        rw [hQ] at hM
        simp at hM
        subst hM
        exact ⟨rfl, hQg⟩
  · rcases hFo : r.static.F with _ | v
    · rw [hFo] at hF'
      simp at hF'
    · rw [hFo] at hF'
      simp at hF'
      subst hF'
      exact ⟨rfl, hF v hFo⟩

/-- Scanning the rebuilt `G66` line recovers exactly the emitted tokens. -/
theorem findToks_render_g66 (st : G66Static) (dyn : List Ijk)
    (h : ∀ cv ∈ g66RewriteToks st dyn, cls66 cv.1 = true ∧ gExact cv.2) :
    findToks cls66 (render_g66_line st dyn) = g66RewriteToks st dyn := by
  rw [render_g66_line, update_g66_parts_eq]
  exact findToks_render cls66 cls66_not_num (by decide) (by decide)
    (String.toList "G66 P9131") (by decide) (g66RewriteToks st dyn) h

/-- Scanning the rebuilt `G83` line recovers exactly the emitted tokens. -/
theorem findToks_render_g83 (r : G83Rec)
    (h : ∀ cv ∈ g83RewriteToks r.original_xy r.static r.use_ijk_mode,
      cls83 cv.1 = true ∧ gExact cv.2) :
    findToks cls83 (render_g83_line r) =
      g83RewriteToks r.original_xy r.static r.use_ijk_mode := by
  rw [render_g83_line, update_g83_parts_eq]
  exact findToks_render cls83 cls83_not_num (by decide) (by decide)
    (String.toList "G83") (by decide)
    (g83RewriteToks r.original_xy r.static r.use_ijk_mode) h

theorem is_zero_set_false (g : Ijk) (h : tol < |g.I| ∨ tol < |g.J| ∨ tol < |g.K|) :
    is_zero_set g = false := by
  rw [is_zero_set]
  rcases h with h | h | h
  · simp [not_lt.mpr h.le]
  · simp [not_lt.mpr h.le]
  · simp [not_lt.mpr h.le]

/-- Under `wf66`, re-running the grouping loop on the emitted tokens recovers
exactly the original statics and triples. -/
theorem parse_g66_tokens_rewrite (st : G66Static) (dyn : List Ijk)
    (h : wf66 ⟨st, dyn⟩) : parse_g66_tokens (g66RewriteToks st dyn) = (st, dyn) := by
  obtain ⟨hR, hZ, hS, hT, hD⟩ := h
  have hdyntoks : (dyn.map (fun g => if tol < |g.I| ∨ tol < |g.J| ∨ tol < |g.K| then
      [(('I' : Char), g.I), ('J', g.J), ('K', g.K)] else [])).flatten = tripleToks dyn := by
    rw [tripleToks]
    refine congrArg List.flatten (List.map_congr_left ?_)
    intro g hg
    rw [if_pos (hD g hg).2]
  have h1 : (match st.R with | some v => [(('R' : Char), v)] | none => []).foldl g66Step
      (⟨none, none, none, none⟩, ⟨none, none, none⟩, []) =
      (⟨st.R, none, none, none⟩, ⟨none, none, none⟩, []) := by
    cases hRo : st.R <;> rfl
  have h2 : (match st.Z with | some v => [(('Z' : Char), v)] | none => []).foldl g66Step
      (⟨st.R, none, none, none⟩, ⟨none, none, none⟩, []) =
      (⟨st.R, st.Z, none, none⟩, ⟨none, none, none⟩, []) := by
    cases hZo : st.Z <;> rfl
  have h3 : (match st.S with
      | some v => if tol < |v| then [(('S' : Char), v)] else []
      | none => []).foldl g66Step
      (⟨st.R, st.Z, none, none⟩, ⟨none, none, none⟩, []) =
      (⟨st.R, st.Z, st.S, none⟩, ⟨none, none, none⟩, []) := by
    cases hSo : st.S with
    | none => rfl
    | some v =>
      rw [show (match some v with
          | some v => if tol < |v| then [(('S' : Char), v)] else []
          | none => ([] : List (Char × ℚ))) =
          if tol < |v| then [(('S' : Char), v)] else [] from rfl,
        if_pos (hS v hSo).2]
      rfl
  have h4 : (match st.T with
      | some v => if tol < |v| then [(('T' : Char), v)] else []
      | none => []).foldl g66Step
      (⟨st.R, st.Z, st.S, none⟩, ⟨none, none, none⟩, []) =
      (⟨st.R, st.Z, st.S, st.T⟩, ⟨none, none, none⟩, []) := by
    cases hTo : st.T with
    | none => rfl
    | some v =>
      rw [show (match some v with
          | some v => if tol < |v| then [(('T' : Char), v)] else []
          | none => ([] : List (Char × ℚ))) =
          if tol < |v| then [(('T' : Char), v)] else [] from rfl,
        if_pos (hT v hTo).2]
      rfl
  rw [parse_g66_tokens, g66RewriteToks, hdyntoks, List.foldl_append, List.foldl_append,
    List.foldl_append, List.foldl_append, h1, h2, h3, h4,
    show (⟨st.R, st.Z, st.S, st.T⟩ : G66Static) = st from rfl]
  cases dyn with
  | nil =>
    rw [show tripleToks [] = [] from rfl, List.foldl_nil, g66Finalize_empty]
  | cons t ts =>
    rw [tripleToks_cons, List.foldl_cons, g66Step_I_open, List.foldl_cons, g66Step_J_open,
      List.foldl_cons, g66Step_K_open, g66_trip_fold ts st [] t.I t.J t.K,
      show (Ijk.mk t.I t.J t.K) = t from rfl, List.nil_append]
    have hfilter : (t :: ts).filter (fun g => !is_zero_set g) = t :: ts :=
      List.filter_eq_self.mpr (fun g hg => by
        rw [is_zero_set_false g (hD g hg).2]
        rfl)
    rw [hfilter]

/-- Folding the emitted `G83` tokens into the static dictionary from the
all-`none` initial state. -/
theorem g83_fold_toks (xy : Option ℚ × Option ℚ) (st : G83Static) (use_ijk : Bool) :
    (g83RewriteToks xy st use_ijk).foldl (fun s cv => g83SetKey s cv.1 cv.2)
        ⟨none, none, none, none, none, none, none, none, none, none⟩ =
      ⟨st.R, st.Z, (if use_ijk then none else st.Q), st.F, none,
       (if use_ijk then st.I else none), (if use_ijk then st.J else none),
       (if use_ijk then st.K else none), xy.1, xy.2⟩ := by
  have h1 : (match xy.1 with | some v => [(('X' : Char), v)] | none => []).foldl
      (fun (s : G83Static) (cv : Char × ℚ) => g83SetKey s cv.1 cv.2)
      ⟨none, none, none, none, none, none, none, none, none, none⟩ =
      ⟨none, none, none, none, none, none, none, none, xy.1, none⟩ := by
    cases hx : xy.1 <;> rfl
  have h2 : (match xy.2 with | some v => [(('Y' : Char), v)] | none => []).foldl
      (fun (s : G83Static) (cv : Char × ℚ) => g83SetKey s cv.1 cv.2)
      ⟨none, none, none, none, none, none, none, none, xy.1, none⟩ =
      ⟨none, none, none, none, none, none, none, none, xy.1, xy.2⟩ := by
    cases hy : xy.2 <;> rfl
  have h3 : (match st.Z with | some v => [(('Z' : Char), v)] | none => []).foldl
      (fun (s : G83Static) (cv : Char × ℚ) => g83SetKey s cv.1 cv.2)
      ⟨none, none, none, none, none, none, none, none, xy.1, xy.2⟩ =
      ⟨none, st.Z, none, none, none, none, none, none, xy.1, xy.2⟩ := by
    cases hz : st.Z <;> rfl
  have h4 : (match st.R with | some v => [(('R' : Char), v)] | none => []).foldl
      (fun (s : G83Static) (cv : Char × ℚ) => g83SetKey s cv.1 cv.2)
      ⟨none, st.Z, none, none, none, none, none, none, xy.1, xy.2⟩ =
      ⟨st.R, st.Z, none, none, none, none, none, none, xy.1, xy.2⟩ := by
    cases hr : st.R <;> rfl
  cases use_ijk with
  | false =>
    have htoks : g83RewriteToks xy st false =
        (match xy.1 with | some v => [(('X' : Char), v)] | none => []) ++
        (match xy.2 with | some v => [(('Y' : Char), v)] | none => []) ++
        (match st.Z with | some v => [(('Z' : Char), v)] | none => []) ++
        (match st.R with | some v => [(('R' : Char), v)] | none => []) ++
        (match st.Q with | some v => [(('Q' : Char), v)] | none => []) ++
        (match st.F with | some v => [(('F' : Char), v)] | none => []) := rfl
    have h5 : (match st.Q with | some v => [(('Q' : Char), v)] | none => []).foldl
        (fun (s : G83Static) (cv : Char × ℚ) => g83SetKey s cv.1 cv.2)
        ⟨st.R, st.Z, none, none, none, none, none, none, xy.1, xy.2⟩ =
        ⟨st.R, st.Z, st.Q, none, none, none, none, none, xy.1, xy.2⟩ := by
      cases hq : st.Q <;> rfl
    have h6 : (match st.F with | some v => [(('F' : Char), v)] | none => []).foldl
        (fun (s : G83Static) (cv : Char × ℚ) => g83SetKey s cv.1 cv.2)
        ⟨st.R, st.Z, st.Q, none, none, none, none, none, xy.1, xy.2⟩ =
        ⟨st.R, st.Z, st.Q, st.F, none, none, none, none, xy.1, xy.2⟩ := by
      cases hf : st.F <;> rfl
    rw [htoks, List.foldl_append, List.foldl_append, List.foldl_append, List.foldl_append,
      List.foldl_append, h1, h2, h3, h4, h5, h6]
    rfl
  | true =>
    have htoks : g83RewriteToks xy st true =
        (match xy.1 with | some v => [(('X' : Char), v)] | none => []) ++
        (match xy.2 with | some v => [(('Y' : Char), v)] | none => []) ++
        (match st.Z with | some v => [(('Z' : Char), v)] | none => []) ++
        (match st.R with | some v => [(('R' : Char), v)] | none => []) ++
        ((match st.I with | some v => [(('I' : Char), v)] | none => []) ++
         (match st.J with | some v => [(('J' : Char), v)] | none => []) ++
         (match st.K with | some v => [(('K' : Char), v)] | none => [])) ++
        (match st.F with | some v => [(('F' : Char), v)] | none => []) := rfl
    have h5 : (match st.I with | some v => [(('I' : Char), v)] | none => []).foldl
        (fun (s : G83Static) (cv : Char × ℚ) => g83SetKey s cv.1 cv.2)
        ⟨st.R, st.Z, none, none, none, none, none, none, xy.1, xy.2⟩ =
        ⟨st.R, st.Z, none, none, none, st.I, none, none, xy.1, xy.2⟩ := by
      cases hi : st.I <;> rfl
    have h6 : (match st.J with | some v => [(('J' : Char), v)] | none => []).foldl
        (fun (s : G83Static) (cv : Char × ℚ) => g83SetKey s cv.1 cv.2)
        ⟨st.R, st.Z, none, none, none, st.I, none, none, xy.1, xy.2⟩ =
        ⟨st.R, st.Z, none, none, none, st.I, st.J, none, xy.1, xy.2⟩ := by
      cases hj : st.J <;> rfl
    have h7 : (match st.K with | some v => [(('K' : Char), v)] | none => []).foldl
        (fun (s : G83Static) (cv : Char × ℚ) => g83SetKey s cv.1 cv.2)
        ⟨st.R, st.Z, none, none, none, st.I, st.J, none, xy.1, xy.2⟩ =
        ⟨st.R, st.Z, none, none, none, st.I, st.J, st.K, xy.1, xy.2⟩ := by
      cases hk : st.K <;> rfl
    have h8 : (match st.F with | some v => [(('F' : Char), v)] | none => []).foldl
        (fun (s : G83Static) (cv : Char × ℚ) => g83SetKey s cv.1 cv.2)
        ⟨st.R, st.Z, none, none, none, st.I, st.J, st.K, xy.1, xy.2⟩ =
        ⟨st.R, st.Z, none, st.F, none, st.I, st.J, st.K, xy.1, xy.2⟩ := by
      cases hf : st.F <;> rfl
    rw [htoks, List.foldl_append, List.foldl_append, List.foldl_append, List.foldl_append,
      List.foldl_append, List.foldl_append, List.foldl_append, h1, h2, h3, h4, h5, h6, h7, h8]
    rfl

/-- Under `wf83`, re-parsing the rebuilt `G83` line (with any detected diameter)
returns exactly the original record: every defaulting and synthesis step of
`_parse_fixed_cycle_line` is a no-op on well-formed data. -/
theorem parse_g83_rewrite (dia : Option ℚ) (r : G83Rec) (h : wf83 r) :
    parse_fixed_cycle_line dia (render_g83_line r) = some r := by
  obtain ⟨st, ruse, rdyn, rxy⟩ := r
  obtain ⟨sR, sZ, sQ, sF, sP, sI, sJ, sK, sX, sY⟩ := st
  have htoks : findToks cls83
      (render_g83_line ⟨⟨sR, sZ, sQ, sF, sP, sI, sJ, sK, sX, sY⟩, ruse, rdyn, rxy⟩) =
      g83RewriteToks rxy ⟨sR, sZ, sQ, sF, sP, sI, sJ, sK, sX, sY⟩ ruse :=
    findToks_render_g83 _ (g83RewriteToks_wf _ h)
  obtain ⟨hR, hZ, hF, hP, hX, hY, hXg, hYg, hRs, hZs, hdynm, hmode⟩ := h
  have hP' : sP = none := hP
  have hX' : sX = rxy.1 := hX
  have hY' : sY = rxy.2 := hY
  have hRs' : sR.isSome = true := hRs
  have hZs' : sZ.isSome = true := hZs
  obtain ⟨rv, hrv⟩ := Option.isSome_iff_exists.mp hRs'
  obtain ⟨zv, hzv⟩ := Option.isSome_iff_exists.mp hZs'
  have hdynm' : ∀ a ∈ sR, ∀ b ∈ sZ,
      rdyn = g83_to_ijk a b ruse (sQ.getD 0) (sI.getD 0) (sJ.getD 0) (sK.getD 0) := hdynm
  cases ruse with
  | true =>
    have hmode' : sQ = none ∧ (∃ iv, sI = some iv ∧ gExact iv ∧ tol ≤ |iv|) ∧
        (∃ jv, sJ = some jv ∧ gExact jv) ∧ (∃ kv, sK = some kv ∧ gExact kv) := hmode
    obtain ⟨hQn, ⟨iv, hIe, hIg, hIt⟩, ⟨jv, hJe, hJg⟩, ⟨kv, hKe, hKg⟩⟩ := hmode'
    have hd1 : decide (|iv| < tol) = false := decide_eq_false (not_lt.mpr hIt)
    have hdyn'' : rdyn = g83_to_ijk rv zv true 0 iv jv kv := by
      have h' := hdynm' rv hrv zv hzv
      rw [hQn, hIe, hJe, hKe] at h'
      simpa using h'
    rw [parse_fixed_cycle_line, htoks, g83_fold_toks]
    simp [hrv, hzv, hQn, hP', hIe, hJe, hKe, hX', hY', hdyn'', hd1]
  | false =>
    have hmode' : sI = some 0 ∧ sJ = some 0 ∧ sK = some 0 ∧
        (∃ qv, sQ = some qv ∧ gExact qv ∧ tol ≤ |qv|) := hmode
    obtain ⟨hI0, hJ0, hK0, ⟨qv, hQe, hQg, hQt⟩⟩ := hmode'
    have hd1 : decide (|qv| < tol) = false := decide_eq_false (not_lt.mpr hQt)
    have hdyn'' : rdyn = g83_to_ijk rv zv false qv 0 0 0 := by
      have h' := hdynm' rv hrv zv hzv
      rw [hQe, hI0, hJ0, hK0] at h'
      simpa using h'
    rw [parse_fixed_cycle_line, htoks, g83_fold_toks]
    simp [hrv, hzv, hQe, hP', hI0, hJ0, hK0, hX', hY', hdyn'', hd1]

/-- Claim C1 (corrected): the re-parse of a rewritten cycle line recovers the
original static and dynamic parameters exactly — not merely within `1e-6` —
provided the record is well formed for the rewrite: every stored value is
`%g`-exact (6 significant digits suffice and the exponent is in fixed-notation
range), values the rewriter omits as below `1e-6` are absent, and (for the
fixed cycle) only the authoritative mode's peck parameters are populated.  The
unconditional `1e-6` closeness of the original claim is refuted by the
counterexample: `%g` truncates to 6 significant digits. -/
theorem C1_round_trip :
    (∀ (line : List Char) (rec : G66Rec), parse_g66_line line = rec → wf66 rec →
      parse_g66_line (render_g66_line rec.static rec.dynamic) = rec) ∧
    (∀ (dia dia' : Option ℚ) (line : List Char) (rec : G83Rec),
      parse_fixed_cycle_line dia line = some rec → wf83 rec →
      parse_fixed_cycle_line dia' (render_g83_line rec) = some rec) := by
  constructor
  · intro line rec hparse hwf
    rw [parse_g66_line,
      findToks_render_g66 rec.static rec.dynamic (g66RewriteToks_wf rec.static rec.dynamic hwf),
      parse_g66_tokens_rewrite rec.static rec.dynamic hwf]
  · intro dia dia' line rec hparse hwf
    exact parse_g83_rewrite dia' rec hwf


section

set_option allowUnsafeReducibility true
attribute [local semireducible] Rat.add Rat.mul Rat.div Rat.sub Rat.neg Rat.inv

/-- Counterexample to the unconditional claim C1: the macro-cycle line with
`Z123.4567` (7 significant digits) parses, rewrites (`%g` keeps 6 significant
digits, printing `Z123.457`) and re-parses to a `Z` that differs from the
original by `3e-4`, far beyond the claimed `1e-6` closeness. -/
theorem C1_round_trip_counterexample :
    (parse_g66_line (String.toList "G66 P9131 R0.5 Z123.4567")).static.Z =
        some (1234567/10000 : ℚ) ∧
    (parse_g66_line (render_g66_line
        (parse_g66_line (String.toList "G66 P9131 R0.5 Z123.4567")).static
        (parse_g66_line (String.toList "G66 P9131 R0.5 Z123.4567")).dynamic)).static.Z =
      some (123457/1000 : ℚ) ∧
    ¬(|(1234567/10000 : ℚ) - 123457/1000| ≤ 1/1000000) := by
  have h1 : parse_g66_line (String.toList "G66 P9131 R0.5 Z123.4567") =
      (⟨⟨some (1/2), some (1234567/10000), none, none⟩, []⟩ : G66Rec) := by
    decide
  have h2 : render_g66_line (⟨some (1/2), some (1234567/10000), none, none⟩ : G66Static) [] =
      String.toList "G66 P9131 R0.5 Z123.457\n" := by
    decide
  have h3 : parse_g66_line (String.toList "G66 P9131 R0.5 Z123.457\n") =
      (⟨⟨some (1/2), some (123457/1000), none, none⟩, []⟩ : G66Rec) := by
    decide
  have habs : |(1234567/10000 : ℚ) - 123457/1000| = 3/10000 := by
    rw [show (1234567/10000 : ℚ) - 123457/1000 = -(3/10000) from by norm_num, abs_neg,
      abs_of_nonneg (by norm_num : (0:ℚ) ≤ 3/10000)]
  refine ⟨by rw [h1], ?_, by rw [habs]; norm_num⟩
  rw [h1,
    show (⟨⟨some (1/2), some (1234567/10000), none, none⟩, []⟩ : G66Rec).static =
      (⟨some (1/2), some (1234567/10000), none, none⟩ : G66Static) from rfl,
    show (⟨⟨some (1/2), some (1234567/10000), none, none⟩, []⟩ : G66Rec).dynamic =
      ([] : List Ijk) from rfl, h2, h3]

end

theorem opt_all_some {p : ℚ → Prop} {x : ℚ} (h : p x) : ∀ v ∈ (some x : Option ℚ), p v := by
  intro v hv
  rw [Option.mem_some_iff] at hv
  subst hv
  exact h

theorem opt_all_none {p : ℚ → Prop} : ∀ v ∈ (none : Option ℚ), p v := by
  intro v hv
  simp at hv

theorem list_all_singleton {α : Type} {p : α → Prop} {x : α} (h : p x) :
    ∀ g ∈ [x], p g := by
  intro g hg
  simp only [List.mem_singleton] at hg
  subst hg
  exact h

section

set_option allowUnsafeReducibility true
attribute [local semireducible] Rat.add Rat.mul Rat.div Rat.sub Rat.neg Rat.inv

set_option maxHeartbeats 4000000 in
theorem C1_round_trip_witness :
    parse_g66_line (render_g66_line
        (⟨some (1/2), some (-29/10), none, none⟩ : G66Static) [⟨-29/10, 9/20, 100⟩]) =
      (⟨⟨some (1/2), some (-29/10), none, none⟩, [⟨-29/10, 9/20, 100⟩]⟩ : G66Rec) ∧
    parse_fixed_cycle_line none (render_g83_line
        (⟨⟨some (1/2), some (-29/10), some (3/2), some 50, none, some 0, some 0, some 0,
           some (3/2), some (5/2)⟩, false, g83_to_ijk (1/2) (-29/10) false (3/2) 0 0 0,
          (some (3/2), some (5/2))⟩ : G83Rec)) =
      some (⟨⟨some (1/2), some (-29/10), some (3/2), some 50, none, some 0, some 0, some 0,
           some (3/2), some (5/2)⟩, false, g83_to_ijk (1/2) (-29/10) false (3/2) 0 0 0,
          (some (3/2), some (5/2))⟩ : G83Rec) := by
  have hgHalf : gExact (1/2 : ℚ) := ⟨by decide, Or.inr ⟨by decide, by decide⟩⟩
  have hgZ : gExact (-29/10 : ℚ) := ⟨by decide, Or.inr ⟨by decide, by decide⟩⟩
  have hgJ : gExact (9/20 : ℚ) := ⟨by decide, Or.inr ⟨by decide, by decide⟩⟩
  have hgK : gExact (100 : ℚ) := ⟨by decide, Or.inr ⟨by decide, by decide⟩⟩
  have hgQ : gExact (3/2 : ℚ) := ⟨by decide, Or.inr ⟨by decide, by decide⟩⟩
  have hgF : gExact (50 : ℚ) := ⟨by decide, Or.inr ⟨by decide, by decide⟩⟩
  have hgY : gExact (5/2 : ℚ) := ⟨by decide, Or.inr ⟨by decide, by decide⟩⟩
  have hpA : parse_g66_line (String.toList "G66 P9131 R0.5 Z-2.9 I-2.9 J0.45 K100") =
      (⟨⟨some (1/2), some (-29/10), none, none⟩, [⟨-29/10, 9/20, 100⟩]⟩ : G66Rec) := by
    decide
  have hwfA : wf66 ⟨⟨some (1/2), some (-29/10), none, none⟩, [⟨-29/10, 9/20, 100⟩]⟩ :=
    ⟨opt_all_some hgHalf, opt_all_some hgZ, opt_all_none, opt_all_none,
     list_all_singleton ⟨⟨hgZ, hgJ, hgK⟩, Or.inl (by decide)⟩⟩
  have hpB : parse_fixed_cycle_line none (String.toList "G83 X1.5 Y2.5 Z-2.9 R0.5 Q1.5 F50") =
      some (⟨⟨some (1/2), some (-29/10), some (3/2), some 50, none, some 0, some 0, some 0,
           some (3/2), some (5/2)⟩, false, g83_to_ijk (1/2) (-29/10) false (3/2) 0 0 0,
          (some (3/2), some (5/2))⟩ : G83Rec) := by
    decide
  have hwfB : wf83 (⟨⟨some (1/2), some (-29/10), some (3/2), some 50, none, some 0, some 0,
      some 0, some (3/2), some (5/2)⟩, false, g83_to_ijk (1/2) (-29/10) false (3/2) 0 0 0,
      (some (3/2), some (5/2))⟩ : G83Rec) :=
    ⟨opt_all_some hgHalf, opt_all_some hgZ, opt_all_some hgF, rfl, rfl, rfl,
     opt_all_some hgQ, opt_all_some hgY, rfl, rfl,
     opt_all_some (opt_all_some (p := fun b =>
       g83_to_ijk (1/2) (-29/10) false (3/2) 0 0 0 =
         g83_to_ijk (1/2) b false (((some (3/2) : Option ℚ)).getD 0)
           (((some (0:ℚ) : Option ℚ)).getD 0) (((some (0:ℚ) : Option ℚ)).getD 0)
           (((some (0:ℚ) : Option ℚ)).getD 0)) rfl),
     ⟨rfl, rfl, rfl, ⟨3/2, rfl, hgQ, by decide⟩⟩⟩
  exact ⟨C1_round_trip.1 (String.toList "G66 P9131 R0.5 Z-2.9 I-2.9 J0.45 K100") _ hpA hwfA,
    C1_round_trip.2 none none (String.toList "G83 X1.5 Y2.5 Z-2.9 R0.5 Q1.5 F50") _ hpB hwfB⟩

end
